import Mathlib

/-!
Shallow embedding of the `bitbucket-sunset` migration tool, covering the
permission-expansion merge (`expand_groups.py`, `utils.py`) and the
idempotent-apply step (`apply_github_permissions.py`), together with proofs
of the specified properties.
-/

namespace BitbucketSunset

/-- Embeds `utils.PERM_ORDER`. -/
def PERM_ORDER : List String := ["REPO_READ", "REPO_WRITE", "REPO_ADMIN"]

/-- Python `list.index`: position of the first occurrence, `none` modelling
the `ValueError` raised when the element is absent. -/
def indexIn (p : String) : List String → Option Nat
  | [] => none
  | q :: rest => if q = p then some 0 else (indexIn p rest).map (· + 1)

/-- `PERM_ORDER.index(p)` from `utils.max_perm`. -/
def permIndex (p : String) : Option Nat :=
  indexIn p PERM_ORDER

/-- Embeds `utils.max_perm`.  The second component records whether a warning
was logged: Python catches the `ValueError` raised when either permission is
absent from `PERM_ORDER`, logs a warning and preserves `current`.  Python's
`max` keeps the first element on key ties, i.e. `current`. -/
def max_perm (current : Option String) (new_perm : String) : String × Bool :=
  match current with
  | none => (new_perm, false)
  | some c =>
    match permIndex c, permIndex new_perm with
    | some i, some j => (if j > i then new_perm else c, false)
    | _, _ => (c, true)

/-- Embeds `utils.BITBUCKET_TO_GITHUB`. -/
def BITBUCKET_TO_GITHUB : List (String × String) :=
  [("REPO_READ", "pull"), ("REPO_WRITE", "push"), ("REPO_ADMIN", "admin")]

/-- Python `dict` lookup (`d.get(k)`) on an association list. -/
def lookupStr (m : List (String × String)) (k : String) : Option String :=
  (m.find? (fun e => decide (e.1 = k))).map (·.2)

/-- Python `str.strip()`: drop leading and trailing whitespace. -/
def pyStrip (s : String) : String :=
  String.mk (((s.data.dropWhile Char.isWhitespace).reverse.dropWhile Char.isWhitespace).reverse)

/-- Python `str.lower()`. -/
def pyLower (s : String) : String :=
  String.mk (s.data.map Char.toLower)

/-! ## Data model of the expand step (`expand_groups.py`) -/

/-- A row of `repo_user_permissions.csv` (fields the expand step reads). -/
structure DirectRow where
  project_key : String
  repo_slug : String
  principal : String
  email : String
  permission : String
deriving DecidableEq, Repr

/-- A row of `repo_group_permissions.csv` (fields the expand step reads). -/
structure GroupPermRow where
  project_key : String
  repo_slug : String
  principal : String
  permission : String
deriving DecidableEq, Repr

/-- A row of `group_members.csv`. -/
structure MemberRow where
  group : String
  user : String
  email : String
deriving DecidableEq, Repr

/-- A row of the effective output
(`project_key,repo_slug,email,permission,source,source_principal`). -/
structure EffRow where
  project_key : String
  repo_slug : String
  email : String
  permission : String
  source : String
  source_principal : String
deriving DecidableEq, Repr

/-- Key of the `effective` dict: `(project_key, repo_slug, email)`. -/
abbrev Key := String × String × String

/-- Warnings logged by the expand step. -/
inductive Warn where
  | skipDirectNoEmail (row : DirectRow)
  | unknownPerm (p : String)
  | groupNoMembers (g : String)
deriving DecidableEq, Repr

/-- Python `dict` lookup on the `effective` association list. -/
def dictGet (m : List (Key × EffRow)) (k : Key) : Option EffRow :=
  (m.find? (fun e => decide (e.1 = k))).map (·.2)

/-- Python `dict` assignment `effective[key] = v`: replaces in place if the
key is present, appends otherwise (insertion order preserved). -/
def dictSet (m : List (Key × EffRow)) (k : Key) (v : EffRow) : List (Key × EffRow) :=
  if m.any (fun e => decide (e.1 = k)) then
    m.map (fun e => if e.1 = k then (k, v) else e)
  else m ++ [(k, v)]

/-- State threaded through the expand loops: the `effective` dict plus the
warnings logged so far. -/
structure ExpandState where
  effective : List (Key × EffRow)
  warnings : List Warn
deriving Repr

/-- Embeds the direct-user loop body of `expand` (lines 37-54). -/
def applyDirect (st : ExpandState) (row : DirectRow) : ExpandState :=
  let email := pyStrip row.email
  if email = "" then
    { st with warnings := st.warnings ++ [Warn.skipDirectNoEmail row] }
  else
    let key : Key := (row.project_key, row.repo_slug, email)
    let prev := (dictGet st.effective key).map (·.permission)
    let perm := row.permission
    let res := max_perm prev perm
    { effective := dictSet st.effective key
        { project_key := row.project_key, repo_slug := row.repo_slug,
          email := email, permission := res.1,
          source := "user", source_principal := row.principal },
      warnings := st.warnings ++ (if res.2 then [Warn.unknownPerm perm] else []) }

/-- `members_by_group.get(g, [])`: the membership rows (with a non-empty
group field) whose group equals `g`, in file order. -/
def membersOf (rows : List MemberRow) (g : String) : List MemberRow :=
  rows.filter (fun r => decide (r.group ≠ "" ∧ r.group = g))

/-- Embeds the inner member loop body of `expand` (lines 65-80). -/
def applyMember (pk rs perm g : String) (st : ExpandState) (m : MemberRow) : ExpandState :=
  let email := pyStrip m.email
  if email = "" then st
  else
    let key : Key := (pk, rs, email)
    let prev := (dictGet st.effective key).map (·.permission)
    let res := max_perm prev perm
    { effective := dictSet st.effective key
        { project_key := pk, repo_slug := rs, email := email,
          permission := res.1, source := "group", source_principal := g },
      warnings := st.warnings ++ (if res.2 then [Warn.unknownPerm perm] else []) }

/-- Embeds the group-permission loop body of `expand` (lines 57-80). -/
def applyGroupRow (members0 : List MemberRow) (st : ExpandState) (row : GroupPermRow) :
    ExpandState :=
  let g := row.principal
  let perm := row.permission
  if g = "" then st
  else
    let members := membersOf members0 g
    let st1 :=
      if members.isEmpty then
        { st with warnings := st.warnings ++ [Warn.groupNoMembers g] }
      else st
    members.foldl (applyMember row.project_key row.repo_slug perm g) st1

/-- Embeds `expand_groups.expand`: fold the direct user rows, then the
group-permission rows, into the `effective` dict. -/
def expand (direct : List DirectRow) (group_perms : List GroupPermRow)
    (members : List MemberRow) : ExpandState :=
  let st0 : ExpandState := { effective := [], warnings := [] }
  let st1 := direct.foldl applyDirect st0
  group_perms.foldl (applyGroupRow members) st1

/-- The permission stored for key `k` (projection of the effective dict). -/
def permAt (st : ExpandState) (k : Key) : Option String :=
  (dictGet st.effective k).map (·.permission)

/-- The key a direct row folds into. -/
def keyOfDirect (r : DirectRow) : Key :=
  (r.project_key, r.repo_slug, pyStrip r.email)

/-- One merge step on the per-key permission: the value stored after folding
one more grant with permission `p`. -/
def stepPerm (acc : Option String) (p : String) : Option String :=
  some (max_perm acc p).1

/-- Permissions of the direct grants that contribute to key `k`. -/
def directContribs (direct : List DirectRow) (k : Key) : List String :=
  (direct.filter (fun r => decide (pyStrip r.email ≠ "" ∧ keyOfDirect r = k))).map
    (·.permission)

/-- Permissions contributed to key `k` by one group-permission row (one copy
per member of the group with a usable email matching `k`). -/
def groupRowContribs (members : List MemberRow) (k : Key) (row : GroupPermRow) :
    List String :=
  if row.principal = "" then []
  else
    ((membersOf members row.principal).filter
        (fun m => decide (pyStrip m.email ≠ "" ∧
          (row.project_key, row.repo_slug, pyStrip m.email) = k))).map
      (fun _ => row.permission)

/-- All grant permissions contributing to key `k`, in fold order. -/
def contribs (direct : List DirectRow) (group_perms : List GroupPermRow)
    (members : List MemberRow) (k : Key) : List String :=
  directContribs direct k ++ group_perms.flatMap (groupRowContribs members k)

/-- Rank of a valid permission in the READ < WRITE < ADMIN order. -/
def rank (p : String) : Nat :=
  (permIndex p).getD 0

/-! ## Data model of the apply step (`apply_github_permissions.py`) -/

/-- A row of the effective CSV as the apply step reads it (the `source` and
`source_principal` columns are never read). -/
structure Entry where
  project_key : String
  repo_slug : String
  email : String
  permission : String
deriving DecidableEq, Repr

/-- A row of the optional `email,github_login` mapping CSV. -/
structure MappingRow where
  email : String
  github_login : String
deriving DecidableEq, Repr

/-- GitHub-side state: which repositories `gh.get_repo` can access, and the
permission string `get_collaborator_permission` reports per repository and
login (`none` models both a missing collaborator and the raised
`GithubException`, which the code treats alike). -/
structure GhState where
  repoExists : String → Bool
  collab : String → String → Option String

/-- Per-identity GitHub API calls issued by the apply step. -/
inductive GhCall where
  | readPerm (full login : String)
  | addCollab (full login perm : String)
deriving DecidableEq, Repr

/-- Log events emitted by the apply step. -/
inductive AWarn where
  | unknownBbPerm (p email : String)
  | noMappingSkip (email : String)
  | noMappingDefault (email login : String)
  | repoInaccessible (full : String)
deriving DecidableEq, Repr

/-- The write calls among a call trace. -/
def writesOf (calls : List GhCall) : List GhCall :=
  calls.filter (fun c => match c with
    | GhCall.addCollab _ _ _ => true
    | _ => false)

/-- Python `dict` assignment on a string association list (later mapping rows
overwrite earlier ones, as in `load_email_to_login`). -/
def dictSetStr (m : List (String × String)) (k v : String) : List (String × String) :=
  if m.any (fun e => decide (e.1 = k)) then
    m.map (fun e => if e.1 = k then (k, v) else e)
  else m ++ [(k, v)]

/-- Embeds `load_email_to_login`: keep rows with a non-empty stripped email
and login, keyed by the lower-cased email. -/
def load_email_to_login (rows : List MappingRow) : List (String × String) :=
  rows.foldl
    (fun acc r =>
      let email := pyLower (pyStrip r.email)
      let login := pyStrip r.github_login
      if email ≠ "" ∧ login ≠ "" then dictSetStr acc email login else acc)
    []

/-- The normalization table of lines 93-99: GitHub's vocabulary mapped onto
the scheme used for desired levels; unknown values pass through
(`.get(current_perm, current_perm)`). -/
def GH_NORM : List (String × String) :=
  [("admin", "admin"), ("write", "push"), ("triage", "triage"),
   ("maintain", "maintain"), ("read", "pull")]

/-- `norm` of lines 93-99. -/
def normGh (c : String) : String :=
  (lookupStr GH_NORM c).getD c

/-- Modelled from the spec: after `add_to_collaborators(login, g)` succeeds,
GitHub reports that collaborator's level in the `{admin, write, read}`
vocabulary that the normalization table of § 6 inverts (pull is reported as
`read`, push as `write`, admin as `admin`). -/
def ghReport (g : String) : String :=
  (lookupStr [("pull", "read"), ("push", "write"), ("admin", "admin")] g).getD g

/-- `bb_perm` of line 70: an absent or empty permission defaults to
`REPO_READ`. -/
def bbPermOf (e : Entry) : String :=
  if e.permission = "" then "REPO_READ" else e.permission

/-- The desired GitHub level of an entry (line 71); `none` when the
Bitbucket permission is unknown. -/
def desiredGh (e : Entry) : Option String :=
  lookupStr BITBUCKET_TO_GITHUB (bbPermOf e)

/-- The login an entry resolves to (lines 76-83): the mapping first, then the
configured default (Python treats an empty default as unset). -/
def resolvedLogin (mapping : List (String × String)) (default_missing : Option String)
    (e : Entry) : Option String :=
  match lookupStr mapping (pyLower (pyStrip e.email)) with
  | some l => some l
  | none =>
    match default_missing with
    | some d => if d = "" then none else some d
    | none => none

/-- The target repository full name, embedding
`GithubTarget.from_project_repo`: `org/{project_key}-{repo_slug}`. -/
def fullOf (org : String) (e : Entry) : String :=
  org ++ "/" ++ (e.project_key ++ "-" ++ e.repo_slug)

/-- Embeds the per-entry loop body of `apply_permissions` (lines 68-119):
returns the per-identity calls made, the log events, and the GitHub state
after the entry. -/
def processEntry (mapping : List (String × String)) (default_missing : Option String)
    (dry_run : Bool) (full : String) (gh : GhState) (e : Entry) :
    List GhCall × List AWarn × GhState :=
  let email := pyLower (pyStrip e.email)
  match desiredGh e with
  | none => ([], [AWarn.unknownBbPerm (bbPermOf e) email], gh)
  | some gh_perm =>
    let step := fun (login : String) (warns : List AWarn) =>
      let current := gh.collab full login
      let needs_update :=
        match current with
        | some cp => if cp ≠ "" then decide (normGh cp ≠ gh_perm) else true
        | none => true
      if needs_update = false then
        ([GhCall.readPerm full login], warns, gh)
      else if dry_run then
        ([GhCall.readPerm full login], warns, gh)
      else
        ([GhCall.readPerm full login, GhCall.addCollab full login gh_perm], warns,
         { gh with collab := fun f l =>
             if f = full ∧ l = login then some (ghReport gh_perm) else gh.collab f l })
    match lookupStr mapping email with
    | some login => step login []
    | none =>
      match default_missing with
      | some d =>
        if d = "" then ([], [AWarn.noMappingSkip email], gh)
        else step d [AWarn.noMappingDefault email d]
      | none => ([], [AWarn.noMappingSkip email], gh)

/-- Accumulated result of the apply step. -/
structure ApplyState where
  calls : List GhCall
  warnings : List AWarn
  gh : GhState

/-- Folds the per-entry body over the entries of one repository. -/
def processEntries (mapping : List (String × String)) (default_missing : Option String)
    (dry_run : Bool) (full : String) (st : ApplyState) (entries : List Entry) :
    ApplyState :=
  entries.foldl
    (fun acc e =>
      let r := processEntry mapping default_missing dry_run full acc.gh e
      { calls := acc.calls ++ r.1, warnings := acc.warnings ++ r.2.1, gh := r.2.2 })
    st

/-- Embeds the per-repository loop body (lines 60-66): an inaccessible
repository is logged and all its entries skipped. -/
def processRepo (mapping : List (String × String)) (default_missing : Option String)
    (dry_run : Bool) (st : ApplyState) (g : String × List Entry) : ApplyState :=
  if st.gh.repoExists g.1 then
    processEntries mapping default_missing dry_run g.1 st g.2
  else
    { st with warnings := st.warnings ++ [AWarn.repoInaccessible g.1] }

/-- One step of the `by_repo` grouping of lines 52-58: `setdefault` keeps
insertion order and appends the row to its repository's list. -/
def groupStep (org : String) (acc : List (String × List Entry)) (r : Entry) :
    List (String × List Entry) :=
  let full := fullOf org r
  if acc.any (fun e => decide (e.1 = full)) then
    acc.map (fun e => if e.1 = full then (e.1, e.2 ++ [r]) else e)
  else acc ++ [(full, [r])]

/-- Embeds the `by_repo` grouping of lines 52-58. -/
def groupByRepo (org : String) (rows : List Entry) : List (String × List Entry) :=
  rows.foldl (groupStep org) []

/-- Stable insertion used to model Python's `sorted(by_repo.items())` (the
keys are pairwise distinct, so any comparison sort produces this list). -/
def insertByName (x : String × List Entry) :
    List (String × List Entry) → List (String × List Entry)
  | [] => [x]
  | y :: ys => if decide (x.1 < y.1) then x :: y :: ys else y :: insertByName x ys

/-- `sorted(by_repo.items())` of line 60. -/
def sortByName (l : List (String × List Entry)) : List (String × List Entry) :=
  l.foldr insertByName []

/-- Embeds `apply_permissions`: load the mapping, group the effective rows by
target repository, and run the read-compare-write loop, starting from the
GitHub state `gh0`. -/
def apply_permissions (org : String) (mapping_rows : List MappingRow)
    (default_missing : Option String) (dry_run : Bool) (rows : List Entry)
    (gh0 : GhState) : ApplyState :=
  let email_to_login := load_email_to_login mapping_rows
  let grouped := sortByName (groupByRepo org rows)
  grouped.foldl (processRepo email_to_login default_missing dry_run)
    { calls := [], warnings := [], gh := gh0 }

/-- The GitHub state already reflects entry `e`'s desired grant: whenever the
entry resolves to a login and a desired level and its target repository is
accessible, the stored collaborator permission normalizes to the desired
level. -/
def Matches (mapping : List (String × String)) (default_missing : Option String)
    (org : String) (gh : GhState) (e : Entry) : Prop :=
  ∀ g l, desiredGh e = some g → resolvedLogin mapping default_missing e = some l →
    gh.repoExists (fullOf org e) = true →
    ∃ cp, gh.collab (fullOf org e) l = some cp ∧ ¬ cp = "" ∧ normGh cp = g

/-! ## Lemmas: the `effective` dict -/

theorem dictGet_nil (k : Key) : dictGet [] k = none := rfl

theorem find?_map_update (m : List (Key × EffRow)) (k : Key) (v : EffRow)
    (h : m.any (fun e => decide (e.1 = k)) = true) :
    (m.map (fun e => if e.1 = k then (k, v) else e)).find?
      (fun e => decide (e.1 = k)) = some (k, v) := by
  induction m with
  | nil => simp at h
  | cons a m ih =>
    simp only [List.map_cons]
    by_cases ha : a.1 = k
    · rw [if_pos ha]
      exact List.find?_cons_of_pos _ (by simp)
    · rw [if_neg ha]
      rw [List.find?_cons_of_neg _ (by simp [ha])]
      simp only [List.any_cons, Bool.or_eq_true, decide_eq_true_eq] at h
      exact ih (h.resolve_left ha)

theorem find?_map_update_other (m : List (Key × EffRow)) (k k' : Key) (v : EffRow)
    (h : k' ≠ k) :
    (m.map (fun e => if e.1 = k then (k, v) else e)).find?
      (fun e => decide (e.1 = k')) = m.find? (fun e => decide (e.1 = k')) := by
  induction m with
  | nil => rfl
  | cons a m ih =>
    simp only [List.map_cons]
    by_cases ha : a.1 = k
    · have h1 : ¬ (k = k') := fun hh => h hh.symm
      have h2 : ¬ (a.1 = k') := by rw [ha]; exact h1
      rw [if_pos ha]
      rw [List.find?_cons_of_neg _ (by simp [h1]), List.find?_cons_of_neg _ (by simp [h2])]
      exact ih
    · rw [if_neg ha]
      by_cases ha' : a.1 = k'
      · rw [List.find?_cons_of_pos _ (by simp [ha']), List.find?_cons_of_pos _ (by simp [ha'])]
      · rw [List.find?_cons_of_neg _ (by simp [ha']), List.find?_cons_of_neg _ (by simp [ha'])]
        exact ih

theorem dictGet_set_self (m : List (Key × EffRow)) (k : Key) (v : EffRow) :
    dictGet (dictSet m k v) k = some v := by
  unfold dictGet dictSet
  by_cases h : m.any (fun e => decide (e.1 = k)) = true
  · rw [if_pos h, find?_map_update m k v h]
    rfl
  · rw [if_neg h]
    have hnone : m.find? (fun e => decide (e.1 = k)) = none := by
      rw [List.find?_eq_none]
      intro x hx hpx
      exact h (List.any_eq_true.mpr ⟨x, hx, hpx⟩)
    have h1 : ([((k : Key), v)]).find? (fun e => decide (e.1 = k)) = some (k, v) :=
      List.find?_cons_of_pos _ (by simp)
    rw [List.find?_append, hnone, h1]
    rfl

theorem dictGet_set_other (m : List (Key × EffRow)) (k k' : Key) (v : EffRow)
    (h : k' ≠ k) :
    dictGet (dictSet m k v) k' = dictGet m k' := by
  unfold dictGet dictSet
  by_cases hm : m.any (fun e => decide (e.1 = k)) = true
  · rw [if_pos hm, find?_map_update_other m k k' v h]
  · rw [if_neg hm]
    have hkk : ¬ (k = k') := fun hh => h hh.symm
    have h1 : ([((k : Key), v)]).find? (fun e => decide (e.1 = k')) = none :=
      List.find?_cons_of_neg _ (by simp [hkk])
    rw [List.find?_append, h1]
    cases m.find? (fun e => decide (e.1 = k')) <;> rfl

/-! ## Lemmas: per-key projection of the expand fold -/

theorem permAt_applyDirect (st : ExpandState) (r : DirectRow) (k : Key) :
    permAt (applyDirect st r) k
      = (directContribs [r] k).foldl stepPerm (permAt st k) := by
  by_cases he : pyStrip r.email = ""
  · have h1 : directContribs [r] k = [] := by
      unfold directContribs
      rw [List.filter_cons_of_neg (by simp [he])]
      rfl
    rw [h1]
    simp only [applyDirect, if_pos he, List.foldl_nil]
    rfl
  · by_cases hk : keyOfDirect r = k
    · have h1 : directContribs [r] k = [r.permission] := by
        unfold directContribs
        rw [List.filter_cons_of_pos (by simp [he, hk])]
        rfl
      rw [h1]
      simp only [applyDirect, if_neg he, List.foldl_cons, List.foldl_nil]
      unfold keyOfDirect at hk
      unfold permAt
      rw [hk, dictGet_set_self]
      rfl
    · have h1 : directContribs [r] k = [] := by
        unfold directContribs
        rw [List.filter_cons_of_neg (by simp [he, hk])]
        rfl
      rw [h1]
      simp only [applyDirect, if_neg he, List.foldl_nil]
      unfold keyOfDirect at hk
      unfold permAt
      rw [dictGet_set_other _ _ _ _ (fun hc => hk hc.symm)]

theorem permAt_applyMember (pk rs perm g : String) (st : ExpandState) (m : MemberRow)
    (k : Key) :
    permAt (applyMember pk rs perm g st m) k
      = if pyStrip m.email ≠ "" ∧ (pk, rs, pyStrip m.email) = k then
          stepPerm (permAt st k) perm
        else permAt st k := by
  by_cases he : pyStrip m.email = ""
  · rw [if_neg (fun hc => hc.1 he)]
    simp only [applyMember, if_pos he]
  · by_cases hk : (pk, rs, pyStrip m.email) = k
    · rw [if_pos ⟨he, hk⟩]
      simp only [applyMember, if_neg he]
      unfold permAt
      rw [hk, dictGet_set_self]
      rfl
    · rw [if_neg (fun hc => hk hc.2)]
      simp only [applyMember, if_neg he]
      unfold permAt
      rw [dictGet_set_other _ _ _ _ (fun hc => hk hc.symm)]

theorem permAt_foldMembers (pk rs perm g : String) (ms : List MemberRow)
    (st : ExpandState) (k : Key) :
    permAt (ms.foldl (applyMember pk rs perm g) st) k
      = ((ms.filter (fun m => decide (pyStrip m.email ≠ "" ∧
            (pk, rs, pyStrip m.email) = k))).map (fun _ => perm)).foldl stepPerm
          (permAt st k) := by
  induction ms generalizing st with
  | nil => rfl
  | cons m ms ih =>
    simp only [List.foldl_cons]
    by_cases hc : pyStrip m.email ≠ "" ∧ (pk, rs, pyStrip m.email) = k
    · rw [List.filter_cons_of_pos (p := fun (x : MemberRow) => decide (pyStrip x.email ≠ "" ∧
          (pk, rs, pyStrip x.email) = k)) (a := m) (decide_eq_true hc)]
      simp only [List.map_cons, List.foldl_cons]
      rw [ih, permAt_applyMember, if_pos hc]
    · rw [List.filter_cons_of_neg (p := fun (x : MemberRow) => decide (pyStrip x.email ≠ "" ∧
          (pk, rs, pyStrip x.email) = k)) (a := m) (by simpa using hc)]
      rw [ih, permAt_applyMember, if_neg hc]

theorem permAt_applyGroupRow (members : List MemberRow) (st : ExpandState)
    (row : GroupPermRow) (k : Key) :
    permAt (applyGroupRow members st row) k
      = (groupRowContribs members k row).foldl stepPerm (permAt st k) := by
  by_cases hg : row.principal = ""
  · simp only [applyGroupRow, if_pos hg, groupRowContribs, List.foldl_nil]
  · have hcontribs : groupRowContribs members k row
        = ((membersOf members row.principal).filter
            (fun m => decide (pyStrip m.email ≠ "" ∧
              (row.project_key, row.repo_slug, pyStrip m.email) = k))).map
          (fun _ => row.permission) := by
      unfold groupRowContribs
      rw [if_neg hg]
    rw [hcontribs]
    simp only [applyGroupRow, if_neg hg]
    by_cases hemp : (membersOf members row.principal).isEmpty
    · rw [if_pos hemp, permAt_foldMembers]
      rfl
    · rw [if_neg hemp, permAt_foldMembers]

theorem permAt_foldDirect (ds : List DirectRow) (st : ExpandState) (k : Key) :
    permAt (ds.foldl applyDirect st) k
      = (directContribs ds k).foldl stepPerm (permAt st k) := by
  induction ds generalizing st with
  | nil => rfl
  | cons d ds ih =>
    simp only [List.foldl_cons]
    have hsplit : directContribs (d :: ds) k
        = directContribs [d] k ++ directContribs ds k := by
      unfold directContribs
      by_cases hc : pyStrip d.email ≠ "" ∧ keyOfDirect d = k
      · rw [List.filter_cons_of_pos (p := fun (x : DirectRow) => decide (pyStrip x.email ≠ "" ∧
            keyOfDirect x = k)) (a := d) (decide_eq_true hc),
          List.filter_cons_of_pos (p := fun (x : DirectRow) => decide (pyStrip x.email ≠ "" ∧
            keyOfDirect x = k)) (a := d) (decide_eq_true hc)]
        simp
      · rw [List.filter_cons_of_neg (p := fun (x : DirectRow) => decide (pyStrip x.email ≠ "" ∧
            keyOfDirect x = k)) (a := d) (by simpa using hc),
          List.filter_cons_of_neg (p := fun (x : DirectRow) => decide (pyStrip x.email ≠ "" ∧
            keyOfDirect x = k)) (a := d) (by simpa using hc)]
        simp
    rw [hsplit, List.foldl_append, ih, permAt_applyDirect]

theorem permAt_foldGroupRows (gs : List GroupPermRow) (members : List MemberRow)
    (st : ExpandState) (k : Key) :
    permAt (gs.foldl (applyGroupRow members) st) k
      = (gs.flatMap (groupRowContribs members k)).foldl stepPerm (permAt st k) := by
  induction gs generalizing st with
  | nil => rfl
  | cons g gs ih =>
    simp only [List.foldl_cons, List.flatMap_cons, List.foldl_append]
    rw [ih, permAt_applyGroupRow]

/-- The per-key permission computed by `expand` is the left fold of
`max_perm` over the grants contributing to that key, in fold order. -/
theorem permAt_expand (direct : List DirectRow) (gps : List GroupPermRow)
    (members : List MemberRow) (k : Key) :
    permAt (expand direct gps members) k
      = (contribs direct gps members k).foldl stepPerm none := by
  unfold expand contribs
  rw [permAt_foldGroupRows, permAt_foldDirect, List.foldl_append]
  rfl

/-! ## Lemmas: `max_perm` on valid permissions -/

theorem permIndex_read : permIndex "REPO_READ" = some 0 := by decide

theorem permIndex_write : permIndex "REPO_WRITE" = some 1 := by decide

theorem permIndex_admin : permIndex "REPO_ADMIN" = some 2 := by decide

theorem permIndex_valid_cases (p : String) (h : permIndex p ≠ none) :
    p = "REPO_READ" ∨ p = "REPO_WRITE" ∨ p = "REPO_ADMIN" := by
  by_cases h1 : p = "REPO_READ"
  · exact Or.inl h1
  by_cases h2 : p = "REPO_WRITE"
  · exact Or.inr (Or.inl h2)
  by_cases h3 : p = "REPO_ADMIN"
  · exact Or.inr (Or.inr h3)
  exfalso
  apply h
  simp only [permIndex, PERM_ORDER, indexIn]
  rw [if_neg (fun hh => h1 hh.symm), if_neg (fun hh => h2 hh.symm),
    if_neg (fun hh => h3 hh.symm)]
  rfl

theorem permIndex_of_mem (p : String) (h : p ∈ PERM_ORDER) : permIndex p ≠ none := by
  simp only [PERM_ORDER, List.mem_cons, List.not_mem_nil, or_false] at h
  rcases h with rfl | rfl | rfl <;> decide

theorem permIndex_inj (a b : String) (i : Nat) (ha : permIndex a = some i)
    (hb : permIndex b = some i) : a = b := by
  have hha := permIndex_valid_cases a (by rw [ha]; exact Option.some_ne_none i)
  have hhb := permIndex_valid_cases b (by rw [hb]; exact Option.some_ne_none i)
  rcases hha with rfl | rfl | rfl <;> rcases hhb with rfl | rfl | rfl <;>
    simp_all [permIndex_read, permIndex_write, permIndex_admin] <;> omega

theorem max_perm_valid (a b : String) (ia ib : Nat) (ha : permIndex a = some ia)
    (hb : permIndex b = some ib) :
    max_perm (some a) b = (if ib > ia then b else a, false) := by
  simp [max_perm, ha, hb]

theorem max_perm_unknown_current (a b : String) (ha : permIndex a = none) :
    max_perm (some a) b = (a, true) := by
  simp [max_perm, ha]

theorem max_perm_unknown_new (a b : String) (ia : Nat) (ha : permIndex a = some ia)
    (hb : permIndex b = none) : max_perm (some a) b = (a, true) := by
  simp [max_perm, ha, hb]

theorem stepPerm_valid_comm (x y : String) (hx : permIndex x ≠ none)
    (hy : permIndex y ≠ none) (z : Option String) :
    stepPerm (stepPerm z x) y = stepPerm (stepPerm z y) x := by
  obtain ⟨ix, hix⟩ : ∃ i, permIndex x = some i := Option.ne_none_iff_exists'.mp hx
  obtain ⟨iy, hiy⟩ : ∃ i, permIndex y = some i := Option.ne_none_iff_exists'.mp hy
  have core : ∀ (a b : String) (ia ib : Nat), permIndex a = some ia →
      permIndex b = some ib →
      (if ib > ia then b else a) = (if ia > ib then a else b) := by
    intro a b ia ib ha hb
    rcases Nat.lt_trichotomy ia ib with hlt | heq | hgt
    · rw [if_pos hlt, if_neg (by omega)]
    · subst heq
      rw [if_neg (by omega), if_neg (by omega)]
      exact permIndex_inj a b ia ha hb
    · rw [if_neg (by omega), if_pos hgt]
  have hxy : stepPerm (some x) y = some (if iy > ix then y else x) := by
    unfold stepPerm; rw [max_perm_valid x y ix iy hix hiy]
  have hyx : stepPerm (some y) x = some (if ix > iy then x else y) := by
    unfold stepPerm; rw [max_perm_valid y x iy ix hiy hix]
  cases z with
  | none =>
    show stepPerm (some x) y = stepPerm (some y) x
    rw [hxy, hyx]
    exact congrArg some (core x y ix iy hix hiy)
  | some c =>
    cases hc : permIndex c with
    | none =>
      have hcx : stepPerm (some c) x = some c := by
        unfold stepPerm; rw [max_perm_unknown_current c x hc]
      have hcy : stepPerm (some c) y = some c := by
        unfold stepPerm; rw [max_perm_unknown_current c y hc]
      rw [hcx, hcy, hcx]
    | some ic =>
      have hcx : stepPerm (some c) x = some (if ix > ic then x else c) := by
        unfold stepPerm; rw [max_perm_valid c x ic ix hc hix]
      have hcy : stepPerm (some c) y = some (if iy > ic then y else c) := by
        unfold stepPerm; rw [max_perm_valid c y ic iy hc hiy]
      rw [hcx, hcy]
      by_cases h1 : ix > ic
      · rw [if_pos h1]
        by_cases h2 : iy > ic
        · rw [if_pos h2, hxy, hyx]
          exact congrArg some (core x y ix iy hix hiy)
        · rw [if_neg h2, hxy, hcx]
          rw [if_neg (by omega : ¬ iy > ix), if_pos h1]
      · rw [if_neg h1]
        by_cases h2 : iy > ic
        · rw [if_pos h2, hcy, hyx]
          rw [if_pos h2, if_neg (by omega : ¬ ix > iy)]
        · rw [if_neg h2, hcy, hcx]
          rw [if_neg h2, if_neg h1]

theorem foldl_stepPerm_of_perm (c₁ c₂ : List String) (h : c₁.Perm c₂)
    (hvalid : ∀ p ∈ c₁, permIndex p ≠ none) (init : Option String) :
    c₁.foldl stepPerm init = c₂.foldl stepPerm init :=
  h.foldl_eq' (fun x hx y hy z => stepPerm_valid_comm x y (hvalid x hx) (hvalid y hy) z) init

theorem foldl_stepPerm_max (c : List String) (hvalid : ∀ p ∈ c, permIndex p ≠ none)
    (a : String) (ia : Nat) (ha : permIndex a = some ia) :
    ∃ m im, c.foldl stepPerm (some a) = some m ∧ permIndex m = some im ∧
      (m = a ∨ m ∈ c) ∧ ia ≤ im ∧ ∀ q ∈ c, rank q ≤ im := by
  induction c generalizing a ia with
  | nil => exact ⟨a, ia, rfl, ha, Or.inl rfl, Nat.le_refl ia, by simp⟩
  | cons p c ih =>
    obtain ⟨ip, hip⟩ : ∃ i, permIndex p = some i :=
      Option.ne_none_iff_exists'.mp (hvalid p (List.mem_cons_self p c))
    have hstep : stepPerm (some a) p = some (if ip > ia then p else a) := by
      unfold stepPerm
      rw [max_perm_valid a p ia ip ha hip]
    have hvalid' : ∀ q ∈ c, permIndex q ≠ none :=
      fun q hq => hvalid q (List.mem_cons_of_mem p hq)
    by_cases hgt : ip > ia
    · obtain ⟨m, im, hm, him, hmem, hle, hall⟩ := ih hvalid' p ip hip
      refine ⟨m, im, ?_, him, ?_, ?_, ?_⟩
      · simp only [List.foldl_cons, hstep, if_pos hgt]; exact hm
      · rcases hmem with rfl | hmem
        · exact Or.inr (List.mem_cons_self m c)
        · exact Or.inr (List.mem_cons_of_mem p hmem)
      · omega
      · intro q hq
        rcases List.mem_cons.mp hq with rfl | hq
        · unfold rank; rw [hip]; simpa using hle
        · exact hall q hq
    · obtain ⟨m, im, hm, him, hmem, hle, hall⟩ := ih hvalid' a ia ha
      refine ⟨m, im, ?_, him, ?_, hle, ?_⟩
      · simp only [List.foldl_cons, hstep, if_neg hgt]; exact hm
      · rcases hmem with rfl | hmem
        · exact Or.inl rfl
        · exact Or.inr (List.mem_cons_of_mem p hmem)
      · intro q hq
        rcases List.mem_cons.mp hq with rfl | hq
        · unfold rank; rw [hip]; simp; omega
        · exact hall q hq

theorem contribs_valid (direct : List DirectRow) (gps : List GroupPermRow)
    (members : List MemberRow) (k : Key)
    (hd : ∀ r ∈ direct, permIndex r.permission ≠ none)
    (hg : ∀ row ∈ gps, permIndex row.permission ≠ none) :
    ∀ p ∈ contribs direct gps members k, permIndex p ≠ none := by
  intro p hp
  unfold contribs at hp
  rcases List.mem_append.mp hp with hp | hp
  · unfold directContribs at hp
    obtain ⟨r, hr, rfl⟩ := List.mem_map.mp hp
    exact hd r (List.mem_of_mem_filter hr)
  · obtain ⟨row, hrow, hpr⟩ := List.mem_flatMap.mp hp
    unfold groupRowContribs at hpr
    by_cases hpr0 : row.principal = ""
    · rw [if_pos hpr0] at hpr
      simp at hpr
    · rw [if_neg hpr0] at hpr
      obtain ⟨m, hm, rfl⟩ := List.mem_map.mp hpr
      exact hg row hrow

theorem contribs_perm (d₁ d₂ : List DirectRow) (g₁ g₂ : List GroupPermRow)
    (m₁ m₂ : List MemberRow) (hd : d₁.Perm d₂) (hg : g₁.Perm g₂) (hm : m₁.Perm m₂)
    (k : Key) : (contribs d₁ g₁ m₁ k).Perm (contribs d₂ g₂ m₂ k) := by
  unfold contribs
  refine List.Perm.append ((hd.filter _).map _) ?_
  have h1 : ∀ row, (groupRowContribs m₁ k row).Perm (groupRowContribs m₂ k row) := by
    intro row
    unfold groupRowContribs membersOf
    by_cases h0 : row.principal = ""
    · rw [if_pos h0, if_pos h0]
    · rw [if_neg h0, if_neg h0]
      exact ((hm.filter _).filter _).map _
  have h2 : (g₁.flatMap (groupRowContribs m₁ k)).Perm (g₁.flatMap (groupRowContribs m₂ k)) :=
    List.Perm.flatMap_left _ (fun a _ => h1 a)
  have h3 : (g₁.flatMap (groupRowContribs m₂ k)).Perm (g₂.flatMap (groupRowContribs m₂ k)) :=
    hg.flatMap_right _
  exact h2.trans h3

/-! ## Claim theorems -/

/-- C4: for any three permissions a, b, c of the REPO_READ < REPO_WRITE <
REPO_ADMIN order, `max_perm` is associative:
max_perm(max_perm(a,b),c) = max_perm(a,max_perm(b,c)). -/
theorem max_perm_assoc (a b c : String) (ha : a ∈ PERM_ORDER) (hb : b ∈ PERM_ORDER)
    (hc : c ∈ PERM_ORDER) :
    (max_perm (some (max_perm (some a) b).1) c).1
      = (max_perm (some a) (max_perm (some b) c).1).1 := by
  have h3 : ∀ p ∈ PERM_ORDER, p = "REPO_READ" ∨ p = "REPO_WRITE" ∨ p = "REPO_ADMIN" :=
    fun p hp => permIndex_valid_cases p (permIndex_of_mem p hp)
  rcases h3 a ha with rfl | rfl | rfl <;> rcases h3 b hb with rfl | rfl | rfl <;>
    rcases h3 c hc with rfl | rfl | rfl <;> decide

/-- Witness for C4 at (REPO_READ, REPO_WRITE, REPO_ADMIN). -/
theorem max_perm_assoc_witness :
    "REPO_READ" ∈ PERM_ORDER ∧ "REPO_WRITE" ∈ PERM_ORDER ∧ "REPO_ADMIN" ∈ PERM_ORDER ∧
    (max_perm (some (max_perm (some "REPO_READ") "REPO_WRITE").1) "REPO_ADMIN").1
      = (max_perm (some "REPO_READ") (max_perm (some "REPO_WRITE") "REPO_ADMIN").1).1 :=
  ⟨by decide, by decide, by decide,
    max_perm_assoc "REPO_READ" "REPO_WRITE" "REPO_ADMIN" (by decide) (by decide) (by decide)⟩

/-- C5: during the merge, a grant whose permission is unknown and that meets a
previously stored permission is rejected from the comparison: `max_perm` keeps
the stored value and flags the warning, and the expand fold keeps the stored
permission for the key, appends exactly one unknown-permission warning, and
does not fail (the fold is a total function). -/
theorem unknown_perm_rejected
    (st : ExpandState) (row : DirectRow) (r0 : EffRow)
    (hmail : ¬ pyStrip row.email = "")
    (hprev : dictGet st.effective (keyOfDirect row) = some r0)
    (hunk : permIndex row.permission = none) :
    max_perm (some r0.permission) row.permission = (r0.permission, true) ∧
    permAt (applyDirect st row) (keyOfDirect row) = some r0.permission ∧
    (applyDirect st row).warnings = st.warnings ++ [Warn.unknownPerm row.permission] := by
  have hmp : ∀ cperm, max_perm (some cperm) row.permission = (cperm, true) := by
    intro cperm
    cases hp : permIndex cperm with
    | none => exact max_perm_unknown_current _ _ hp
    | some i => exact max_perm_unknown_new _ _ i hp hunk
  unfold keyOfDirect at hprev ⊢
  refine ⟨hmp r0.permission, ?_, ?_⟩
  · simp only [applyDirect, if_neg hmail]
    unfold permAt
    rw [dictGet_set_self, hprev]
    simp only [Option.map_some']
    rw [hmp r0.permission]
  · simp only [applyDirect, if_neg hmail]
    rw [hprev]
    simp only [Option.map_some']
    simp [hmp r0.permission]

/-- Witness for C5: a stored REPO_READ meets an unknown permission "X". -/
theorem unknown_perm_rejected_witness :
    (¬ pyStrip "e" = "") ∧
    dictGet (ExpandState.mk
        [(("P", "R", "e"), EffRow.mk "P" "R" "e" "REPO_READ" "user" "a")] []).effective
        (keyOfDirect (DirectRow.mk "P" "R" "b" "e" "X"))
      = some (EffRow.mk "P" "R" "e" "REPO_READ" "user" "a") ∧
    permIndex "X" = none ∧
    permAt (applyDirect
        (ExpandState.mk
          [(("P", "R", "e"), EffRow.mk "P" "R" "e" "REPO_READ" "user" "a")] [])
        (DirectRow.mk "P" "R" "b" "e" "X"))
      (keyOfDirect (DirectRow.mk "P" "R" "b" "e" "X")) = some "REPO_READ" :=
  ⟨by decide, by decide, by decide,
    (unknown_perm_rejected
      (ExpandState.mk [(("P", "R", "e"), EffRow.mk "P" "R" "e" "REPO_READ" "user" "a")] [])
      (DirectRow.mk "P" "R" "b" "e" "X")
      (EffRow.mk "P" "R" "e" "REPO_READ" "user" "a")
      (by decide) (by decide) (by decide)).2.1⟩

/-- C9: an unknown permission folded first for a key is returned by
`max_perm(None, u)` with no warning, every later grant for that key leaves the
stored unknown permission unchanged, and the unknown string appears verbatim
as the key's permission in the effective output. -/
theorem unknown_first_absorbs
    (direct : List DirectRow) (gps : List GroupPermRow) (members : List MemberRow)
    (k : Key) (u : String) (rest : List String)
    (hunk : permIndex u = none)
    (hfirst : contribs direct gps members k = u :: rest) :
    max_perm none u = (u, false) ∧
    (∀ v, max_perm (some u) v = (u, true)) ∧
    permAt (expand direct gps members) k = some u := by
  have habs : ∀ v, max_perm (some u) v = (u, true) :=
    fun v => max_perm_unknown_current u v hunk
  have habs2 : ∀ (l : List String), List.foldl stepPerm (some u) l = some u := by
    intro l
    induction l with
    | nil => rfl
    | cons v l ih =>
      simp only [List.foldl_cons]
      have hstep : stepPerm (some u) v = some u := by
        unfold stepPerm
        rw [habs v]
      rw [hstep]
      exact ih
  refine ⟨rfl, habs, ?_⟩
  rw [permAt_expand, hfirst]
  simp only [List.foldl_cons]
  exact habs2 rest

/-- Witness for C9: a direct grant with unknown permission "X" folded first. -/
theorem unknown_first_absorbs_witness :
    permIndex "X" = none ∧
    contribs [DirectRow.mk "P" "R" "a" "e" "X"]
      [GroupPermRow.mk "P" "R" "dev" "REPO_ADMIN"]
      [MemberRow.mk "dev" "u" "e"] ("P", "R", "e")
      = "X" :: ["REPO_ADMIN"] ∧
    permAt (expand [DirectRow.mk "P" "R" "a" "e" "X"]
      [GroupPermRow.mk "P" "R" "dev" "REPO_ADMIN"]
      [MemberRow.mk "dev" "u" "e"]) ("P", "R", "e") = some "X" :=
  ⟨by decide, by decide,
    (unknown_first_absorbs [DirectRow.mk "P" "R" "a" "e" "X"]
      [GroupPermRow.mk "P" "R" "dev" "REPO_ADMIN"]
      [MemberRow.mk "dev" "u" "e"] ("P", "R", "e") "X" ["REPO_ADMIN"]
      (by decide) (by decide)).2.2⟩

/-- C2 counterexample: a direct user grant and a group-derived grant with the
same key and equal permission REPO_READ — the user-vs-group tie the spec
flags; the effective row keeps the group grant's attribution
("group", "dev"), not the first-seen ("user", "alice"). -/
theorem tie_overwrites_attribution_cex :
    (dictGet (expand [DirectRow.mk "P" "R" "alice" "e" "REPO_READ"]
        [GroupPermRow.mk "P" "R" "dev" "REPO_READ"]
        [MemberRow.mk "dev" "u" "e"]).effective ("P", "R", "e")).map
      (fun r => (r.source, r.source_principal)) = some ("group", "dev") ∧
    some ("group", "dev") ≠ some ("user", "alice") := by decide

/-- C2 (amended): on every fold for a key that already has a stored entry —
the direct-user fold and the group-derived fold alike — the source
attribution is rewritten to the latest grant's source and principal, also on
equal (and even lower) permission; only the permission field keeps the
running maximum computed by `max_perm`. -/
theorem fold_overwrites_attribution
    (st : ExpandState) (row : DirectRow) (r0 : EffRow)
    (pk rs perm g : String) (m : MemberRow) (r1 : EffRow)
    (hmail : ¬ pyStrip row.email = "")
    (hprev : dictGet st.effective (keyOfDirect row) = some r0)
    (hmmail : ¬ pyStrip m.email = "")
    (hmprev : dictGet st.effective (pk, rs, pyStrip m.email) = some r1) :
    dictGet (applyDirect st row).effective (keyOfDirect row)
      = some { project_key := row.project_key, repo_slug := row.repo_slug,
               email := pyStrip row.email,
               permission := (max_perm (some r0.permission) row.permission).1,
               source := "user", source_principal := row.principal } ∧
    dictGet (applyMember pk rs perm g st m).effective (pk, rs, pyStrip m.email)
      = some { project_key := pk, repo_slug := rs, email := pyStrip m.email,
               permission := (max_perm (some r1.permission) perm).1,
               source := "group", source_principal := g } := by
  constructor
  · unfold keyOfDirect at hprev ⊢
    simp only [applyDirect, if_neg hmail]
    rw [dictGet_set_self, hprev]
    rfl
  · simp only [applyMember, if_neg hmmail]
    rw [dictGet_set_self, hmprev]
    rfl

/-- Witness for C2 (amended): the ties of the counterexample — bob's direct
grant and the dev group's grant each folded onto the state holding alice's
row. -/
theorem fold_overwrites_attribution_witness :
    (¬ pyStrip "e" = "") ∧
    dictGet (ExpandState.mk
        [(("P", "R", "e"), EffRow.mk "P" "R" "e" "REPO_READ" "user" "alice")] []).effective
        (keyOfDirect (DirectRow.mk "P" "R" "bob" "e" "REPO_READ"))
      = some (EffRow.mk "P" "R" "e" "REPO_READ" "user" "alice") ∧
    dictGet (ExpandState.mk
        [(("P", "R", "e"), EffRow.mk "P" "R" "e" "REPO_READ" "user" "alice")] []).effective
        ("P", "R", pyStrip "e")
      = some (EffRow.mk "P" "R" "e" "REPO_READ" "user" "alice") ∧
    dictGet (applyDirect
        (ExpandState.mk
          [(("P", "R", "e"), EffRow.mk "P" "R" "e" "REPO_READ" "user" "alice")] [])
        (DirectRow.mk "P" "R" "bob" "e" "REPO_READ")).effective
        (keyOfDirect (DirectRow.mk "P" "R" "bob" "e" "REPO_READ"))
      = some (EffRow.mk "P" "R" "e" "REPO_READ" "user" "bob") ∧
    dictGet (applyMember "P" "R" "REPO_READ" "dev"
        (ExpandState.mk
          [(("P", "R", "e"), EffRow.mk "P" "R" "e" "REPO_READ" "user" "alice")] [])
        (MemberRow.mk "dev" "u" "e")).effective ("P", "R", pyStrip "e")
      = some (EffRow.mk "P" "R" "e" "REPO_READ" "group" "dev") :=
  ⟨by decide, by decide, by decide, by
    have h := fold_overwrites_attribution
      (ExpandState.mk [(("P", "R", "e"), EffRow.mk "P" "R" "e" "REPO_READ" "user" "alice")] [])
      (DirectRow.mk "P" "R" "bob" "e" "REPO_READ")
      (EffRow.mk "P" "R" "e" "REPO_READ" "user" "alice")
      "P" "R" "REPO_READ" "dev" (MemberRow.mk "dev" "u" "e")
      (EffRow.mk "P" "R" "e" "REPO_READ" "user" "alice")
      (by decide) (by decide) (by decide) (by decide)
    exact ⟨h.1, h.2⟩⟩

/-- C7 counterexample: a group grant whose only member record has an empty
email is dropped from the effective set with no warning at all. -/
theorem member_no_email_silent_cex :
    (expand [] [GroupPermRow.mk "P" "R" "dev" "REPO_WRITE"]
      [MemberRow.mk "dev" "u" ""]).effective = [] ∧
    (expand [] [GroupPermRow.mk "P" "R" "dev" "REPO_WRITE"]
      [MemberRow.mk "dev" "u" ""]).warnings = [] := by decide

/-- C7 (amended): grants lacking an email are dropped from the effective set;
a direct user grant without an email is dropped with a warning, while a
group-derived grant whose member record lacks an email is dropped silently
(no warning). -/
theorem no_email_dropped
    (st : ExpandState) (row : DirectRow) (pk rs perm g : String) (m : MemberRow)
    (hrow : pyStrip row.email = "") (hm : pyStrip m.email = "") :
    applyDirect st row
      = { st with warnings := st.warnings ++ [Warn.skipDirectNoEmail row] } ∧
    applyMember pk rs perm g st m = st := by
  constructor
  · simp only [applyDirect, if_pos hrow]
  · simp only [applyMember, if_pos hm]

/-- Witness for C7 (amended) at empty-email rows. -/
theorem no_email_dropped_witness :
    pyStrip "" = "" ∧
    applyDirect (ExpandState.mk [] []) (DirectRow.mk "P" "R" "a" "" "REPO_READ")
      = ExpandState.mk []
          [Warn.skipDirectNoEmail (DirectRow.mk "P" "R" "a" "" "REPO_READ")] ∧
    applyMember "P" "R" "REPO_WRITE" "dev" (ExpandState.mk [] [])
        (MemberRow.mk "dev" "u" "")
      = ExpandState.mk [] [] := by
  refine ⟨by decide, ?_, ?_⟩
  · exact (no_email_dropped (ExpandState.mk [] [])
      (DirectRow.mk "P" "R" "a" "" "REPO_READ") "P" "R" "REPO_WRITE" "dev"
      (MemberRow.mk "dev" "u" "") (by decide) (by decide)).1
  · exact (no_email_dropped (ExpandState.mk [] [])
      (DirectRow.mk "P" "R" "a" "" "REPO_READ") "P" "R" "REPO_WRITE" "dev"
      (MemberRow.mk "dev" "u" "") (by decide) (by decide)).2

/-- C1 (amended): when every grant permission is one of
REPO_READ/REPO_WRITE/REPO_ADMIN, the expand merge is order-independent —
permuting the direct-grant, group-grant and membership inputs leaves the
per-key effective permission unchanged — and the permission stored for a key
is one of that key's contributing grant permissions and the strongest of them
under the READ < WRITE < ADMIN order.  (As stated over arbitrary grant
multisets the claim fails; see the counterexample with an unknown
permission.) -/
theorem expand_order_independent
    (d₁ d₂ : List DirectRow) (g₁ g₂ : List GroupPermRow) (m₁ m₂ : List MemberRow)
    (hd : d₁.Perm d₂) (hg : g₁.Perm g₂) (hm : m₁.Perm m₂)
    (hvd : ∀ r ∈ d₁, r.permission ∈ PERM_ORDER)
    (hvg : ∀ r ∈ g₁, r.permission ∈ PERM_ORDER) (k : Key) :
    permAt (expand d₁ g₁ m₁) k = permAt (expand d₂ g₂ m₂) k ∧
    (∀ p, permAt (expand d₁ g₁ m₁) k = some p →
      p ∈ contribs d₁ g₁ m₁ k ∧ ∀ q ∈ contribs d₁ g₁ m₁ k, rank q ≤ rank p) := by
  have hvalid : ∀ p ∈ contribs d₁ g₁ m₁ k, permIndex p ≠ none :=
    contribs_valid d₁ g₁ m₁ k (fun r hr => permIndex_of_mem _ (hvd r hr))
      (fun r hr => permIndex_of_mem _ (hvg r hr))
  constructor
  · rw [permAt_expand, permAt_expand]
    exact foldl_stepPerm_of_perm _ _ (contribs_perm d₁ d₂ g₁ g₂ m₁ m₂ hd hg hm k)
      hvalid none
  · intro p hp
    rw [permAt_expand] at hp
    cases hcon : contribs d₁ g₁ m₁ k with
    | nil =>
      rw [hcon] at hp
      exact absurd hp (by simp)
    | cons a rest =>
      rw [hcon] at hp
      obtain ⟨ia, hia⟩ : ∃ i, permIndex a = some i :=
        Option.ne_none_iff_exists'.mp
          (hvalid a (by rw [hcon]; exact List.mem_cons_self a rest))
      have hvrest : ∀ q ∈ rest, permIndex q ≠ none := fun q hq =>
        hvalid q (by rw [hcon]; exact List.mem_cons_of_mem a hq)
      obtain ⟨m, im, hmfold, him, hmem, hle, hall⟩ := foldl_stepPerm_max rest hvrest a ia hia
      simp only [List.foldl_cons] at hp
      have hpm : p = m := by
        have h2 : some p = some m := hp.symm.trans hmfold
        exact Option.some_inj.mp h2
      subst hpm
      constructor
      · rcases hmem with rfl | hmemr
        · exact List.mem_cons_self p rest
        · exact List.mem_cons_of_mem a hmemr
      · intro q hq
        have hrankp : rank p = im := by unfold rank; rw [him]; rfl
        rcases List.mem_cons.mp hq with rfl | hqr
        · have : rank q = ia := by unfold rank; rw [hia]; rfl
          omega
        · have := hall q hqr
          omega

/-- C1 counterexample: the same two direct grants in both orders — one
carrying the unknown permission "X" — give the key different effective
permissions, so over arbitrary grant multisets the merge is not
order-independent and the stored permission is not the strongest valid one. -/
theorem expand_order_dependent_cex :
    ([DirectRow.mk "P" "R" "u1" "e" "X",
      DirectRow.mk "P" "R" "u2" "e" "REPO_ADMIN"].Perm
      [DirectRow.mk "P" "R" "u2" "e" "REPO_ADMIN",
       DirectRow.mk "P" "R" "u1" "e" "X"]) ∧
    permAt (expand [DirectRow.mk "P" "R" "u1" "e" "X",
        DirectRow.mk "P" "R" "u2" "e" "REPO_ADMIN"] [] []) ("P", "R", "e")
      = some "X" ∧
    permAt (expand [DirectRow.mk "P" "R" "u2" "e" "REPO_ADMIN",
        DirectRow.mk "P" "R" "u1" "e" "X"] [] []) ("P", "R", "e")
      = some "REPO_ADMIN" ∧
    some "X" ≠ some "REPO_ADMIN" :=
  ⟨List.Perm.swap _ _ _, by decide, by decide, by decide⟩

/-- Witness for C1 (amended): two valid direct grants, swapped. -/
theorem expand_order_independent_witness :
    ([DirectRow.mk "P" "R" "a" "e" "REPO_READ",
      DirectRow.mk "P" "R" "b" "e" "REPO_ADMIN"].Perm
      [DirectRow.mk "P" "R" "b" "e" "REPO_ADMIN",
       DirectRow.mk "P" "R" "a" "e" "REPO_READ"]) ∧
    permAt (expand [DirectRow.mk "P" "R" "a" "e" "REPO_READ",
        DirectRow.mk "P" "R" "b" "e" "REPO_ADMIN"] [] []) ("P", "R", "e")
      = permAt (expand [DirectRow.mk "P" "R" "b" "e" "REPO_ADMIN",
        DirectRow.mk "P" "R" "a" "e" "REPO_READ"] [] []) ("P", "R", "e") :=
  ⟨List.Perm.swap _ _ _,
    (expand_order_independent
      [DirectRow.mk "P" "R" "a" "e" "REPO_READ",
        DirectRow.mk "P" "R" "b" "e" "REPO_ADMIN"]
      [DirectRow.mk "P" "R" "b" "e" "REPO_ADMIN",
        DirectRow.mk "P" "R" "a" "e" "REPO_READ"]
      [] [] [] [] (List.Perm.swap _ _ _) (List.Perm.refl []) (List.Perm.refl [])
      (by decide) (by decide) ("P", "R", "e")).1⟩

/-- C10: an effective-set row whose permission field is missing or empty is
not skipped: it defaults to REPO_READ, maps to the GitHub level "pull", and
is processed exactly like a REPO_READ row through the read-compare-write
step. -/
theorem empty_permission_defaults_to_read
    (mapping : List (String × String)) (dm : Option String) (dr : Bool)
    (full : String) (gh : GhState) (e : Entry) (h : e.permission = "") :
    bbPermOf e = "REPO_READ" ∧ desiredGh e = some "pull" ∧
    processEntry mapping dm dr full gh e
      = processEntry mapping dm dr full gh
          (Entry.mk e.project_key e.repo_slug e.email "REPO_READ") := by
  have h1 : bbPermOf e = "REPO_READ" := by
    unfold bbPermOf
    rw [if_pos h]
  have h2 : desiredGh e = some "pull" := by
    unfold desiredGh
    rw [h1]
    rfl
  have h2' : desiredGh (Entry.mk e.project_key e.repo_slug e.email "REPO_READ")
      = some "pull" := rfl
  refine ⟨h1, h2, ?_⟩
  unfold processEntry
  rw [h2, h2']

/-- Witness for C10 at a concrete empty-permission row. -/
theorem empty_permission_defaults_to_read_witness :
    (Entry.mk "P" "R" "a@x" "").permission = "" ∧
    bbPermOf (Entry.mk "P" "R" "a@x" "") = "REPO_READ" ∧
    desiredGh (Entry.mk "P" "R" "a@x" "") = some "pull" :=
  ⟨rfl,
    (empty_permission_defaults_to_read [] none false "o/P-R"
      (GhState.mk (fun _ => true) (fun _ _ => none))
      (Entry.mk "P" "R" "a@x" "") rfl).1,
    (empty_permission_defaults_to_read [] none false "o/P-R"
      (GhState.mk (fun _ => true) (fun _ _ => none))
      (Entry.mk "P" "R" "a@x" "") rfl).2.1⟩

/-- C8 (amended): for an entry whose normalized email is absent from the
email-to-login mapping: with no default login configured (or an empty one)
the entry is skipped with exactly one log warning, zero per-identity GitHub
calls, and no state change; with a non-empty default configured, provided the
entry's permission maps to a GitHub level, the default login is used, the
use-default warning is logged, and processing continues to the
read-compare-write step on that login.  (The original second branch fails for
entries with an unknown permission, which are skipped before identity
resolution; see the counterexample.) -/
theorem unmapped_email_entry
    (mapping : List (String × String)) (dm : Option String) (dr : Bool)
    (full : String) (gh : GhState) (e : Entry)
    (hnomap : lookupStr mapping (pyLower (pyStrip e.email)) = none) :
    ((dm = none ∨ dm = some "") →
      (processEntry mapping dm dr full gh e).1 = [] ∧
      (processEntry mapping dm dr full gh e).2.1.length = 1 ∧
      (processEntry mapping dm dr full gh e).2.2 = gh) ∧
    (∀ d g, dm = some d → ¬ d = "" → desiredGh e = some g →
      AWarn.noMappingDefault (pyLower (pyStrip e.email)) d
          ∈ (processEntry mapping dm dr full gh e).2.1 ∧
      GhCall.readPerm full d ∈ (processEntry mapping dm dr full gh e).1) := by
  constructor
  · intro hdm
    cases hdg : desiredGh e with
    | none =>
      simp only [processEntry, hdg]
      exact ⟨by trivial, by trivial, by trivial⟩
    | some gperm =>
      simp only [processEntry, hdg, hnomap]
      rcases hdm with rfl | rfl
      · exact ⟨by trivial, by trivial, by trivial⟩
      · simp only [if_pos rfl]
        exact ⟨by trivial, by trivial, by trivial⟩
  · intro d gperm hdm hdne hdg
    subst hdm
    simp only [processEntry, hdg, hnomap, if_neg hdne]
    constructor
    · split
      · simp
      · split
        · simp
        · simp
    · split
      · simp
      · split
        · simp
        · simp

/-- C8 counterexample: an unmapped email with a configured default login but
an unknown Bitbucket permission — the entry is skipped before identity
resolution, so the default login is never used and no mapping warning is
logged. -/
theorem unmapped_email_default_unused_cex :
    lookupStr (load_email_to_login []) (pyLower (pyStrip "a@x")) = none ∧
    (processEntry (load_email_to_login []) (some "svc") false "o/P-R"
        (GhState.mk (fun _ => true) (fun _ _ => none))
        (Entry.mk "P" "R" "a@x" "BOGUS")).1 = [] ∧
    AWarn.noMappingDefault "a@x" "svc" ∉
      (processEntry (load_email_to_login []) (some "svc") false "o/P-R"
        (GhState.mk (fun _ => true) (fun _ _ => none))
        (Entry.mk "P" "R" "a@x" "BOGUS")).2.1 := by
  refine ⟨rfl, rfl, ?_⟩
  decide

/-- Witness for C8 (amended): both branches at concrete entries. -/
theorem unmapped_email_entry_witness :
    lookupStr (load_email_to_login []) (pyLower (pyStrip "a@x")) = none ∧
    ((processEntry (load_email_to_login []) none false "o/P-R"
        (GhState.mk (fun _ => true) (fun _ _ => none))
        (Entry.mk "P" "R" "a@x" "REPO_WRITE")).1 = [] ∧
      (processEntry (load_email_to_login []) none false "o/P-R"
        (GhState.mk (fun _ => true) (fun _ _ => none))
        (Entry.mk "P" "R" "a@x" "REPO_WRITE")).2.1.length = 1 ∧
      (processEntry (load_email_to_login []) none false "o/P-R"
        (GhState.mk (fun _ => true) (fun _ _ => none))
        (Entry.mk "P" "R" "a@x" "REPO_WRITE")).2.2
        = GhState.mk (fun _ => true) (fun _ _ => none)) ∧
    (AWarn.noMappingDefault (pyLower (pyStrip "a@x")) "svc"
        ∈ (processEntry (load_email_to_login []) (some "svc") false "o/P-R"
          (GhState.mk (fun _ => true) (fun _ _ => none))
          (Entry.mk "P" "R" "a@x" "REPO_WRITE")).2.1 ∧
      GhCall.readPerm "o/P-R" "svc"
        ∈ (processEntry (load_email_to_login []) (some "svc") false "o/P-R"
          (GhState.mk (fun _ => true) (fun _ _ => none))
          (Entry.mk "P" "R" "a@x" "REPO_WRITE")).1) :=
  ⟨rfl,
    (unmapped_email_entry (load_email_to_login []) none false "o/P-R"
      (GhState.mk (fun _ => true) (fun _ _ => none))
      (Entry.mk "P" "R" "a@x" "REPO_WRITE") rfl).1 (Or.inl rfl),
    (unmapped_email_entry (load_email_to_login []) (some "svc") false "o/P-R"
      (GhState.mk (fun _ => true) (fun _ _ => none))
      (Entry.mk "P" "R" "a@x" "REPO_WRITE") rfl).2 "svc" "push" rfl
      (by decide) rfl⟩

/-! ## Lemmas: warnings and effective rows of the group loop -/

theorem applyMember_warnings (pk rs perm g : String) (st : ExpandState) (m : MemberRow) :
    ∃ w, (applyMember pk rs perm g st m).warnings = st.warnings ++ w ∧
      ∀ x ∈ w, ∃ p, x = Warn.unknownPerm p := by
  by_cases he : pyStrip m.email = ""
  · refine ⟨[], ?_, by simp⟩
    simp [applyMember, if_pos he]
  · simp only [applyMember, if_neg he]
    refine ⟨_, rfl, ?_⟩
    split
    · intro x hx
      simp only [List.mem_singleton] at hx
      exact ⟨_, hx⟩
    · intro x hx
      simp at hx

theorem foldMembers_warnings (pk rs perm g : String) (ms : List MemberRow)
    (st : ExpandState) :
    ∃ w, (ms.foldl (applyMember pk rs perm g) st).warnings = st.warnings ++ w ∧
      ∀ x ∈ w, ∃ p, x = Warn.unknownPerm p := by
  induction ms generalizing st with
  | nil => exact ⟨[], by simp, by simp⟩
  | cons m ms ih =>
    obtain ⟨w1, hw1, hp1⟩ := applyMember_warnings pk rs perm g st m
    obtain ⟨w2, hw2, hp2⟩ := ih (applyMember pk rs perm g st m)
    refine ⟨w1 ++ w2, ?_, ?_⟩
    · simp only [List.foldl_cons, hw2, hw1, List.append_assoc]
    · intro x hx
      rcases List.mem_append.mp hx with h | h
      · exact hp1 x h
      · exact hp2 x h

theorem applyGroupRow_warnings_count (members : List MemberRow) (st : ExpandState)
    (row : GroupPermRow) (g : String) (hne : ¬ g = "")
    (hnomem : membersOf members g = []) :
    ∃ w, (applyGroupRow members st row).warnings = st.warnings ++ w ∧
      w.count (Warn.groupNoMembers g) = (if row.principal = g then 1 else 0) := by
  by_cases h0 : row.principal = ""
  · have hpg : ¬ row.principal = g := by
      rw [h0]
      exact fun hh => hne hh.symm
    refine ⟨[], ?_, by simp [if_neg hpg]⟩
    simp [applyGroupRow, if_pos h0]
  · by_cases hpg : row.principal = g
    · have hm : membersOf members row.principal = [] := by rw [hpg]; exact hnomem
      refine ⟨[Warn.groupNoMembers row.principal], ?_, ?_⟩
      · simp only [applyGroupRow, if_neg h0, hm]
        simp
      · rw [hpg]
        simp [if_pos rfl]
    · by_cases hemp : (membersOf members row.principal).isEmpty
      · obtain ⟨wm, hwm, hpm⟩ := foldMembers_warnings row.project_key row.repo_slug
          row.permission row.principal (membersOf members row.principal)
          { st with warnings := st.warnings ++ [Warn.groupNoMembers row.principal] }
        refine ⟨[Warn.groupNoMembers row.principal] ++ wm, ?_, ?_⟩
        · simp only [applyGroupRow, if_neg h0, if_pos hemp]
          rw [hwm]
          simp [List.append_assoc]
        · rw [List.count_append]
          have c1 : ([Warn.groupNoMembers row.principal]).count (Warn.groupNoMembers g)
              = 0 := by
            simp [List.count_singleton', hpg]
          have c2 : wm.count (Warn.groupNoMembers g) = 0 := by
            rw [List.count_eq_zero]
            intro hmem
            obtain ⟨p, hp⟩ := hpm _ hmem
            simp at hp
          rw [c1, c2]
          simp [if_neg hpg]
      · obtain ⟨wm, hwm, hpm⟩ := foldMembers_warnings row.project_key row.repo_slug
          row.permission row.principal (membersOf members row.principal) st
        refine ⟨wm, ?_, ?_⟩
        · simp only [applyGroupRow, if_neg h0, if_neg hemp]
          exact hwm
        · have c2 : wm.count (Warn.groupNoMembers g) = 0 := by
            rw [List.count_eq_zero]
            intro hmem
            obtain ⟨p, hp⟩ := hpm _ hmem
            simp at hp
          rw [c2]
          simp [if_neg hpg]

theorem foldGroupRows_warnings_count (gps : List GroupPermRow) (members : List MemberRow)
    (st : ExpandState) (g : String) (hne : ¬ g = "")
    (hnomem : membersOf members g = []) :
    ∃ w, (gps.foldl (applyGroupRow members) st).warnings = st.warnings ++ w ∧
      w.count (Warn.groupNoMembers g)
        = (gps.filter (fun r => decide (r.principal = g))).length := by
  induction gps generalizing st with
  | nil => exact ⟨[], by simp, by simp⟩
  | cons row gps ih =>
    obtain ⟨w1, hw1, hc1⟩ := applyGroupRow_warnings_count members st row g hne hnomem
    obtain ⟨w2, hw2, hc2⟩ := ih (applyGroupRow members st row)
    refine ⟨w1 ++ w2, ?_, ?_⟩
    · simp only [List.foldl_cons, hw2, hw1, List.append_assoc]
    · rw [List.count_append, hc1, hc2]
      by_cases hpg : row.principal = g
      · rw [List.filter_cons_of_pos (p := fun (r : GroupPermRow) =>
          decide (r.principal = g)) (a := row) (decide_eq_true hpg)]
        rw [if_pos hpg, List.length_cons]
        omega
      · rw [List.filter_cons_of_neg (p := fun (r : GroupPermRow) =>
          decide (r.principal = g)) (a := row) (by simpa using hpg)]
        rw [if_neg hpg]
        omega

theorem applyDirect_warnings_shape (st : ExpandState) (row : DirectRow) :
    ∃ w, (applyDirect st row).warnings = st.warnings ++ w ∧
      ∀ x ∈ w, ∀ g, x ≠ Warn.groupNoMembers g := by
  by_cases he : pyStrip row.email = ""
  · refine ⟨[Warn.skipDirectNoEmail row], ?_, ?_⟩
    · simp [applyDirect, if_pos he]
    · intro x hx g
      simp only [List.mem_singleton] at hx
      subst hx
      simp
  · simp only [applyDirect, if_neg he]
    refine ⟨_, rfl, ?_⟩
    split
    · intro x hx g
      simp only [List.mem_singleton] at hx
      subst hx
      simp
    · intro x hx
      simp at hx

theorem foldDirect_warnings_shape (ds : List DirectRow) (st : ExpandState) :
    ∃ w, (ds.foldl applyDirect st).warnings = st.warnings ++ w ∧
      ∀ x ∈ w, ∀ g, x ≠ Warn.groupNoMembers g := by
  induction ds generalizing st with
  | nil => exact ⟨[], by simp, by simp⟩
  | cons d ds ih =>
    obtain ⟨w1, hw1, hp1⟩ := applyDirect_warnings_shape st d
    obtain ⟨w2, hw2, hp2⟩ := ih (applyDirect st d)
    refine ⟨w1 ++ w2, ?_, ?_⟩
    · simp only [List.foldl_cons, hw2, hw1, List.append_assoc]
    · intro x hx
      rcases List.mem_append.mp hx with h | h
      · exact hp1 x h
      · exact hp2 x h

theorem applyMember_effective_congr (pk rs perm g : String) (st st' : ExpandState)
    (h : st.effective = st'.effective) (m : MemberRow) :
    (applyMember pk rs perm g st m).effective
      = (applyMember pk rs perm g st' m).effective := by
  by_cases he : pyStrip m.email = ""
  · simp only [applyMember, if_pos he]
    exact h
  · simp only [applyMember, if_neg he, h]

theorem foldMembers_effective_congr (pk rs perm g : String) (ms : List MemberRow)
    (st st' : ExpandState) (h : st.effective = st'.effective) :
    (ms.foldl (applyMember pk rs perm g) st).effective
      = (ms.foldl (applyMember pk rs perm g) st').effective := by
  induction ms generalizing st st' with
  | nil => exact h
  | cons m ms ih =>
    exact ih _ _ (applyMember_effective_congr pk rs perm g st st' h m)

theorem applyGroupRow_effective_congr (members : List MemberRow) (st st' : ExpandState)
    (row : GroupPermRow) (h : st.effective = st'.effective) :
    (applyGroupRow members st row).effective
      = (applyGroupRow members st' row).effective := by
  simp only [applyGroupRow]
  by_cases h0 : row.principal = ""
  · rw [if_pos h0, if_pos h0]
    exact h
  · rw [if_neg h0, if_neg h0]
    by_cases hemp : (membersOf members row.principal).isEmpty
    · rw [if_pos hemp, if_pos hemp]
      exact foldMembers_effective_congr _ _ _ _ _ _ _ h
    · rw [if_neg hemp, if_neg hemp]
      exact foldMembers_effective_congr _ _ _ _ _ _ _ h

theorem foldGroupRows_effective_congr (gps : List GroupPermRow)
    (members : List MemberRow) (st st' : ExpandState)
    (h : st.effective = st'.effective) :
    (gps.foldl (applyGroupRow members) st).effective
      = (gps.foldl (applyGroupRow members) st').effective := by
  induction gps generalizing st st' with
  | nil => exact h
  | cons row gps ih =>
    exact ih _ _ (applyGroupRow_effective_congr members st st' row h)

theorem applyGroupRow_no_members_effective (members : List MemberRow)
    (st : ExpandState) (row : GroupPermRow)
    (hm : membersOf members row.principal = []) :
    (applyGroupRow members st row).effective = st.effective := by
  simp only [applyGroupRow]
  by_cases h0 : row.principal = ""
  · rw [if_pos h0]
  · rw [if_neg h0, hm]
    simp

theorem foldGroupRows_effective_filter (gps : List GroupPermRow)
    (members : List MemberRow) (st : ExpandState) (g : String)
    (hnomem : membersOf members g = []) :
    (gps.foldl (applyGroupRow members) st).effective
      = ((gps.filter (fun r => decide (¬ r.principal = g))).foldl
          (applyGroupRow members) st).effective := by
  induction gps generalizing st with
  | nil => rfl
  | cons row gps ih =>
    by_cases hpg : row.principal = g
    · rw [List.filter_cons_of_neg (p := fun (r : GroupPermRow) =>
        decide (¬ r.principal = g)) (a := row) (by simpa using hpg)]
      simp only [List.foldl_cons]
      have h1 : (applyGroupRow members st row).effective = st.effective := by
        apply applyGroupRow_no_members_effective
        rw [hpg]
        exact hnomem
      have h2 := foldGroupRows_effective_congr gps members
        (applyGroupRow members st row) st h1
      rw [h2]
      exact ih st
    · rw [List.filter_cons_of_pos (p := fun (r : GroupPermRow) =>
        decide (¬ r.principal = g)) (a := row) (by simpa using hpg)]
      simp only [List.foldl_cons]
      exact ih (applyGroupRow members st row)

/-- C6 (amended): a group with repository grants but no listed members
contributes zero effective rows — removing its grant rows leaves the
effective dict unchanged — and the no-members warning is emitted once per
grant row naming the group, not once per group. -/
theorem group_no_members_zero_rows
    (direct : List DirectRow) (gps : List GroupPermRow) (members : List MemberRow)
    (g : String) (hne : ¬ g = "") (hnomem : membersOf members g = []) :
    (expand direct gps members).effective
      = (expand direct (gps.filter (fun r => decide (¬ r.principal = g)))
          members).effective ∧
    (expand direct gps members).warnings.count (Warn.groupNoMembers g)
      = (gps.filter (fun r => decide (r.principal = g))).length := by
  constructor
  · unfold expand
    exact foldGroupRows_effective_filter gps members _ g hnomem
  · unfold expand
    obtain ⟨w0, hw0, hp0⟩ :=
      foldDirect_warnings_shape direct { effective := [], warnings := [] }
    obtain ⟨w1, hw1, hc1⟩ := foldGroupRows_warnings_count gps members
      (direct.foldl applyDirect { effective := [], warnings := [] }) g hne hnomem
    rw [hw1, hw0]
    simp only [List.nil_append, List.count_append]
    have c0 : w0.count (Warn.groupNoMembers g) = 0 := by
      rw [List.count_eq_zero]
      intro hmem
      exact hp0 _ hmem g rfl
    rw [c0, hc1]
    omega

/-- C6 counterexample: a group with two repository grants and no listed
members gets two no-members warnings, not exactly one. -/
theorem group_warning_per_row_cex :
    (expand [] [GroupPermRow.mk "P" "R1" "dev" "REPO_WRITE",
        GroupPermRow.mk "P" "R2" "dev" "REPO_WRITE"] []).warnings.count
      (Warn.groupNoMembers "dev") = 2 ∧ (2 : Nat) ≠ 1 := by decide

/-- Witness for C6 (amended): one grant row for a memberless group. -/
theorem group_no_members_zero_rows_witness :
    (¬ "dev" = "") ∧ membersOf [] "dev" = [] ∧
    (expand [] [GroupPermRow.mk "P" "R1" "dev" "REPO_WRITE"] []).effective
      = (expand [] ([GroupPermRow.mk "P" "R1" "dev" "REPO_WRITE"].filter
          (fun r => decide (¬ r.principal = "dev"))) []).effective ∧
    (expand [] [GroupPermRow.mk "P" "R1" "dev" "REPO_WRITE"] []).warnings.count
        (Warn.groupNoMembers "dev")
      = ([GroupPermRow.mk "P" "R1" "dev" "REPO_WRITE"].filter
          (fun r => decide (r.principal = "dev"))).length :=
  ⟨by decide, rfl,
    (group_no_members_zero_rows [] [GroupPermRow.mk "P" "R1" "dev" "REPO_WRITE"] []
      "dev" (by decide) rfl).1,
    (group_no_members_zero_rows [] [GroupPermRow.mk "P" "R1" "dev" "REPO_WRITE"] []
      "dev" (by decide) rfl).2⟩

/-! ## Lemmas: the apply step, per entry -/

theorem lookupStr_BB (b : String) :
    lookupStr BITBUCKET_TO_GITHUB b
      = if b = "REPO_READ" then some "pull"
        else if b = "REPO_WRITE" then some "push"
        else if b = "REPO_ADMIN" then some "admin" else none := by
  unfold lookupStr BITBUCKET_TO_GITHUB
  by_cases h1 : b = "REPO_READ"
  · rw [List.find?_cons_of_pos _ (by simp [h1]), if_pos h1]
    rfl
  · rw [List.find?_cons_of_neg _ (by simp; exact fun hh => h1 hh.symm), if_neg h1]
    by_cases h2 : b = "REPO_WRITE"
    · rw [List.find?_cons_of_pos _ (by simp [h2]), if_pos h2]
      rfl
    · rw [List.find?_cons_of_neg _ (by simp; exact fun hh => h2 hh.symm), if_neg h2]
      by_cases h3 : b = "REPO_ADMIN"
      · rw [List.find?_cons_of_pos _ (by simp [h3]), if_pos h3]
        rfl
      · rw [List.find?_cons_of_neg _ (by simp; exact fun hh => h3 hh.symm), if_neg h3]
        rfl

theorem desiredGh_cases (e : Entry) (g : String) (h : desiredGh e = some g) :
    g = "pull" ∨ g = "push" ∨ g = "admin" := by
  unfold desiredGh at h
  rw [lookupStr_BB] at h
  split at h
  · exact Or.inl (Option.some_inj.mp h).symm
  · split at h
    · exact Or.inr (Or.inl (Option.some_inj.mp h).symm)
    · split at h
      · exact Or.inr (Or.inr (Option.some_inj.mp h).symm)
      · exact absurd h (by simp)

theorem ghReport_round (g : String) (h : g = "pull" ∨ g = "push" ∨ g = "admin") :
    ¬ ghReport g = "" ∧ normGh (ghReport g) = g := by
  rcases h with rfl | rfl | rfl <;> exact ⟨by decide, by decide⟩

theorem processEntry_state (mapping : List (String × String)) (dm : Option String)
    (dr : Bool) (full : String) (gh : GhState) (e : Entry) :
    ((processEntry mapping dm dr full gh e).2.2 = gh) ∨
    (∃ g l, desiredGh e = some g ∧ resolvedLogin mapping dm e = some l ∧
      (processEntry mapping dm dr full gh e).2.2
        = { repoExists := gh.repoExists,
            collab := fun f l' => if f = full ∧ l' = l then some (ghReport g)
              else gh.collab f l' }) := by
  cases hdg : desiredGh e with
  | none =>
    left
    simp [processEntry, hdg]
  | some gperm =>
    have hstep : ∀ (login : String),
        (lookupStr mapping (pyLower (pyStrip e.email)) = some login ∨
          (lookupStr mapping (pyLower (pyStrip e.email)) = none ∧ dm = some login ∧
            ¬ login = "")) →
        ((processEntry mapping dm dr full gh e).2.2 = gh) ∨
        (∃ g l, some gperm = some g ∧ resolvedLogin mapping dm e = some l ∧
          (processEntry mapping dm dr full gh e).2.2
            = { repoExists := gh.repoExists,
                collab := fun f l' => if f = full ∧ l' = l then some (ghReport g)
                  else gh.collab f l' }) := by
      intro login hcase
      have hrl : resolvedLogin mapping dm e = some login := by
        unfold resolvedLogin
        rcases hcase with h | ⟨h1, h2, h3⟩
        · rw [h]
        · rw [h1, h2]
          show (if login = "" then none else some login) = some login
          rw [if_neg h3]
      rcases hcase with hlk | ⟨hlk, hdm, hd⟩
      · simp only [processEntry, hdg, hlk]
        split
        · left; rfl
        · split
          · left; rfl
          · right
            exact ⟨gperm, login, rfl, hrl, rfl⟩
      · subst hdm
        simp only [processEntry, hdg, hlk, if_neg hd]
        split
        · left; rfl
        · split
          · left; rfl
          · right
            exact ⟨gperm, login, rfl, hrl, rfl⟩
    cases hlk : lookupStr mapping (pyLower (pyStrip e.email)) with
    | some l0 => exact hstep l0 (Or.inl hlk)
    | none =>
      cases dm with
      | none =>
        left
        simp [processEntry, hdg, hlk]
      | some d =>
        by_cases hd : d = ""
        · left
          simp [processEntry, hdg, hlk, if_pos hd]
        · exact hstep d (Or.inr ⟨hlk, rfl, hd⟩)

theorem processEntry_repoExists (mapping : List (String × String)) (dm : Option String)
    (dr : Bool) (full : String) (gh : GhState) (e : Entry) :
    (processEntry mapping dm dr full gh e).2.2.repoExists = gh.repoExists := by
  rcases processEntry_state mapping dm dr full gh e with h | ⟨g, l, _, _, h⟩ <;> rw [h]

theorem processEntry_skip (mapping : List (String × String)) (dm : Option String)
    (dr : Bool) (full : String) (gh : GhState) (e : Entry)
    (h : desiredGh e = none ∨ resolvedLogin mapping dm e = none) :
    (processEntry mapping dm dr full gh e).1 = [] ∧
    (processEntry mapping dm dr full gh e).2.2 = gh := by
  rcases h with hdg | hrl
  · simp [processEntry, hdg]
  · cases hdg : desiredGh e with
    | none => simp [processEntry, hdg]
    | some g =>
      unfold resolvedLogin at hrl
      cases hlk : lookupStr mapping (pyLower (pyStrip e.email)) with
      | some l0 =>
        rw [hlk] at hrl
        exact absurd hrl (by simp)
      | none =>
        rw [hlk] at hrl
        cases dm with
        | none => simp [processEntry, hdg, hlk]
        | some d =>
          have hrl2 : (if d = "" then none else some d : Option String) = none := hrl
          by_cases hd : d = ""
          · simp [processEntry, hdg, hlk, if_pos hd]
          · rw [if_neg hd] at hrl2
            exact absurd hrl2 (by simp)

theorem processEntry_resolved (mapping : List (String × String)) (dm : Option String)
    (dr : Bool) (full : String) (gh : GhState) (e : Entry) (g l : String)
    (hdg : desiredGh e = some g) (hrl : resolvedLogin mapping dm e = some l) :
    ∃ warns, processEntry mapping dm dr full gh e
      = (if (match gh.collab full l with
              | some cp => if cp ≠ "" then decide (normGh cp ≠ g) else true
              | none => true) = false then ([GhCall.readPerm full l], warns, gh)
         else if dr then ([GhCall.readPerm full l], warns, gh)
         else ([GhCall.readPerm full l, GhCall.addCollab full l g], warns,
           { gh with collab := fun f l' => if f = full ∧ l' = l then some (ghReport g)
               else gh.collab f l' })) := by
  cases hlk : lookupStr mapping (pyLower (pyStrip e.email)) with
  | some l0 =>
    have hl0 : l0 = l := by
      unfold resolvedLogin at hrl
      rw [hlk] at hrl
      exact Option.some_inj.mp hrl
    subst hl0
    refine ⟨[], ?_⟩
    simp only [processEntry, hdg, hlk]
  | none =>
    unfold resolvedLogin at hrl
    rw [hlk] at hrl
    cases dm with
    | none => exact absurd hrl (by simp)
    | some d =>
      have hrl2 : (if d = "" then none else some d : Option String) = some l := hrl
      by_cases hd : d = ""
      · rw [if_pos hd] at hrl2
        exact absurd hrl2 (by simp)
      · rw [if_neg hd] at hrl2
        have hdl : d = l := Option.some_inj.mp hrl2
        subst hdl
        refine ⟨[AWarn.noMappingDefault (pyLower (pyStrip e.email)) d], ?_⟩
        simp only [processEntry, hdg, hlk, if_neg hd]

theorem processEntry_establishes (mapping : List (String × String)) (dm : Option String)
    (org : String) (gh : GhState) (e : Entry)
    (_hre : gh.repoExists (fullOf org e) = true) :
    Matches mapping dm org (processEntry mapping dm false (fullOf org e) gh e).2.2 e := by
  intro g l hdg hrl _
  obtain ⟨warns, heq⟩ :=
    processEntry_resolved mapping dm false (fullOf org e) gh e g l hdg hrl
  rw [heq]
  have hval := desiredGh_cases e g hdg
  have hrep := ghReport_round g hval
  cases hc : gh.collab (fullOf org e) l with
  | none =>
    refine ⟨ghReport g, ?_, hrep.1, hrep.2⟩
    simp
  | some cp =>
    by_cases hcp : cp = ""
    · refine ⟨ghReport g, ?_, hrep.1, hrep.2⟩
      simp [hcp]
    · by_cases hn : normGh cp = g
      · refine ⟨cp, ?_, hcp, hn⟩
        simp [hcp, hn, hc]
      · refine ⟨ghReport g, ?_, hrep.1, hrep.2⟩
        simp [hcp, hn]

theorem processEntry_no_write_of_match (mapping : List (String × String))
    (dm : Option String) (org full : String) (gh : GhState) (e : Entry)
    (hfull : fullOf org e = full) (hm : Matches mapping dm org gh e)
    (hre : gh.repoExists full = true) :
    writesOf (processEntry mapping dm false full gh e).1 = [] ∧
    (processEntry mapping dm false full gh e).2.2 = gh := by
  cases hdg : desiredGh e with
  | none =>
    obtain ⟨h1, h2⟩ := processEntry_skip mapping dm false full gh e (Or.inl hdg)
    rw [h1, h2]
    exact ⟨rfl, rfl⟩
  | some g =>
    cases hrl : resolvedLogin mapping dm e with
    | none =>
      obtain ⟨h1, h2⟩ := processEntry_skip mapping dm false full gh e (Or.inr hrl)
      rw [h1, h2]
      exact ⟨rfl, rfl⟩
    | some l =>
      obtain ⟨cp, hc, hcp, hn⟩ := hm g l hdg hrl (by rw [hfull]; exact hre)
      rw [hfull] at hc
      obtain ⟨warns, heq⟩ := processEntry_resolved mapping dm false full gh e g l hdg hrl
      rw [heq]
      constructor
      · simp [writesOf, hc, hcp, hn]
      · simp [hc, hcp, hn]

theorem processEntry_write_requires_diff (mapping : List (String × String))
    (dm : Option String) (dr : Bool) (full : String) (gh : GhState) (e : Entry)
    (f l g : String)
    (hmem : GhCall.addCollab f l g ∈ (processEntry mapping dm dr full gh e).1) :
    f = full ∧ desiredGh e = some g ∧ resolvedLogin mapping dm e = some l ∧
    ¬ ∃ cp, gh.collab full l = some cp ∧ ¬ cp = "" ∧ normGh cp = g := by
  cases hdg : desiredGh e with
  | none =>
    rw [(processEntry_skip mapping dm dr full gh e (Or.inl hdg)).1] at hmem
    simp at hmem
  | some g0 =>
    cases hrl : resolvedLogin mapping dm e with
    | none =>
      rw [(processEntry_skip mapping dm dr full gh e (Or.inr hrl)).1] at hmem
      simp at hmem
    | some l0 =>
      obtain ⟨warns, heq⟩ := processEntry_resolved mapping dm dr full gh e g0 l0 hdg hrl
      rw [heq] at hmem
      by_cases hnu : (match gh.collab full l0 with
          | some cp => if cp ≠ "" then decide (normGh cp ≠ g0) else true
          | none => true) = false
      · rw [if_pos hnu] at hmem
        simp at hmem
      · rw [if_neg hnu] at hmem
        by_cases hdr : dr = true
        · rw [if_pos hdr] at hmem
          simp at hmem
        · rw [if_neg hdr] at hmem
          simp only [List.mem_cons, List.not_mem_nil, or_false] at hmem
          rcases hmem with hmem | hmem
          · exact absurd hmem (by simp)
          · injection hmem with hf hl hg
            subst hf
            subst hl
            subst hg
            refine ⟨rfl, rfl, rfl, ?_⟩
            rintro ⟨cp, hc, hcp, hn⟩
            apply hnu
            rw [hc]
            show (if cp ≠ "" then decide (normGh cp ≠ g) else true) = false
            rw [if_pos hcp]
            simp [hn]

theorem processEntry_preserves (mapping : List (String × String)) (dm : Option String)
    (org full : String) (gh : GhState) (e e0 : Entry)
    (hfull : full = fullOf org e)
    (hcompat : fullOf org e = fullOf org e0 →
      resolvedLogin mapping dm e = resolvedLogin mapping dm e0 →
      (resolvedLogin mapping dm e).isSome = true →
      desiredGh e = desiredGh e0)
    (hm : Matches mapping dm org gh e0) :
    Matches mapping dm org (processEntry mapping dm false full gh e).2.2 e0 := by
  intro g0 l0 hdg0 hrl0 hre0
  have hrex := processEntry_repoExists mapping dm false full gh e
  have hre0' : gh.repoExists (fullOf org e0) = true := by
    rw [hrex] at hre0
    exact hre0
  obtain ⟨cp, hc, hcp, hn⟩ := hm g0 l0 hdg0 hrl0 hre0'
  rcases processEntry_state mapping dm false full gh e with hst | ⟨g, l, hdg, hrl, hst⟩
  · rw [hst]
    exact ⟨cp, hc, hcp, hn⟩
  · rw [hst]
    by_cases hint : fullOf org e0 = full ∧ l0 = l
    · have hff : fullOf org e = fullOf org e0 := by
        rw [← hfull, hint.1]
      have hrleq : resolvedLogin mapping dm e = resolvedLogin mapping dm e0 := by
        rw [hrl, hrl0, hint.2]
      have hdeq : desiredGh e = desiredGh e0 :=
        hcompat hff hrleq (by rw [hrl]; rfl)
      have hg0 : g = g0 :=
        Option.some_inj.mp (hdg.symm.trans (hdeq.trans hdg0))
      have hrep := ghReport_round g (desiredGh_cases e g hdg)
      refine ⟨ghReport g, ?_, hrep.1, ?_⟩
      · show (if fullOf org e0 = full ∧ l0 = l then some (ghReport g)
          else gh.collab (fullOf org e0) l0) = some (ghReport g)
        rw [if_pos hint]
      · rw [hrep.2]
        exact hg0
    · refine ⟨cp, ?_, hcp, hn⟩
      show (if fullOf org e0 = full ∧ l0 = l then some (ghReport g)
        else gh.collab (fullOf org e0) l0) = some cp
      rw [if_neg hint]
      exact hc

theorem processEntries_cons (mapping : List (String × String)) (dm : Option String)
    (dr : Bool) (full : String) (st : ApplyState) (e : Entry) (es : List Entry) :
    processEntries mapping dm dr full st (e :: es)
      = processEntries mapping dm dr full
          (ApplyState.mk (st.calls ++ (processEntry mapping dm dr full st.gh e).1)
            (st.warnings ++ (processEntry mapping dm dr full st.gh e).2.1)
            ((processEntry mapping dm dr full st.gh e).2.2)) es := rfl

theorem processEntries_post (mapping : List (String × String)) (dm : Option String)
    (org full : String) (es : List Entry) (R : List Entry) (st : ApplyState)
    (hes : ∀ e ∈ es, e ∈ R ∧ fullOf org e = full)
    (H : ∀ e1 ∈ R, ∀ e2 ∈ R, fullOf org e1 = fullOf org e2 →
      resolvedLogin mapping dm e1 = resolvedLogin mapping dm e2 →
      (resolvedLogin mapping dm e1).isSome = true →
      desiredGh e1 = desiredGh e2)
    (hre : st.gh.repoExists full = true) :
    (∀ e0 ∈ R, Matches mapping dm org st.gh e0 →
      Matches mapping dm org (processEntries mapping dm false full st es).gh e0) ∧
    (∀ e ∈ es, Matches mapping dm org (processEntries mapping dm false full st es).gh e) ∧
    (processEntries mapping dm false full st es).gh.repoExists = st.gh.repoExists := by
  induction es generalizing st with
  | nil => exact ⟨fun e0 _ h => h, by simp, rfl⟩
  | cons e es ih =>
    obtain ⟨heR, hef⟩ := hes e (List.mem_cons_self e es)
    have hes' : ∀ x ∈ es, x ∈ R ∧ fullOf org x = full :=
      fun x hx => hes x (List.mem_cons_of_mem e hx)
    rw [processEntries_cons]
    have hgh1 : (ApplyState.mk
          (st.calls ++ (processEntry mapping dm false full st.gh e).1)
          (st.warnings ++ (processEntry mapping dm false full st.gh e).2.1)
          ((processEntry mapping dm false full st.gh e).2.2)).gh
        = (processEntry mapping dm false full st.gh e).2.2 := rfl
    have hre1 : (processEntry mapping dm false full st.gh e).2.2.repoExists full = true := by
      rw [processEntry_repoExists]
      exact hre
    have hestab : Matches mapping dm org
        (processEntry mapping dm false full st.gh e).2.2 e := by
      have h := processEntry_establishes mapping dm org st.gh e
        (by rw [hef]; exact hre)
      rw [hef] at h
      exact h
    have hpres : ∀ e0 ∈ R, Matches mapping dm org st.gh e0 →
        Matches mapping dm org (processEntry mapping dm false full st.gh e).2.2 e0 :=
      fun e0 he0 hm => processEntry_preserves mapping dm org full st.gh e e0 hef.symm
        (fun a b c => H e heR e0 he0 a b c) hm
    obtain ⟨p2, e2, r2⟩ := ih
      (ApplyState.mk (st.calls ++ (processEntry mapping dm false full st.gh e).1)
        (st.warnings ++ (processEntry mapping dm false full st.gh e).2.1)
        ((processEntry mapping dm false full st.gh e).2.2)) hes'
      (by rw [hgh1]; exact hre1)
    refine ⟨?_, ?_, ?_⟩
    · intro e0 he0 hm
      exact p2 e0 he0 (hpres e0 he0 hm)
    · intro x hx
      rcases List.mem_cons.mp hx with rfl | hx
      · exact p2 x heR hestab
      · exact e2 x hx
    · rw [r2, hgh1, processEntry_repoExists]

theorem processRepo_post (mapping : List (String × String)) (dm : Option String)
    (org : String) (R : List Entry) (st : ApplyState) (g : String × List Entry)
    (hg : ∀ e ∈ g.2, e ∈ R ∧ fullOf org e = g.1)
    (H : ∀ e1 ∈ R, ∀ e2 ∈ R, fullOf org e1 = fullOf org e2 →
      resolvedLogin mapping dm e1 = resolvedLogin mapping dm e2 →
      (resolvedLogin mapping dm e1).isSome = true →
      desiredGh e1 = desiredGh e2) :
    (∀ e0 ∈ R, Matches mapping dm org st.gh e0 →
      Matches mapping dm org (processRepo mapping dm false st g).gh e0) ∧
    (∀ e ∈ g.2, Matches mapping dm org (processRepo mapping dm false st g).gh e) ∧
    (processRepo mapping dm false st g).gh.repoExists = st.gh.repoExists := by
  by_cases hre : st.gh.repoExists g.1 = true
  · have heq : processRepo mapping dm false st g
        = processEntries mapping dm false g.1 st g.2 := by
      unfold processRepo
      rw [if_pos hre]
    rw [heq]
    exact processEntries_post mapping dm org g.1 g.2 R st hg H hre
  · have heq : processRepo mapping dm false st g
        = { st with warnings := st.warnings ++ [AWarn.repoInaccessible g.1] } := by
      unfold processRepo
      rw [if_neg hre]
    rw [heq]
    refine ⟨fun e0 _ h => h, ?_, rfl⟩
    intro e he g0 l0 hdg hrl hre'
    exfalso
    apply hre
    rw [← (hg e he).2]
    exact hre'

theorem applyFold_post (mapping : List (String × String)) (dm : Option String)
    (org : String) (groups : List (String × List Entry)) (R : List Entry)
    (st : ApplyState)
    (hgs : ∀ p ∈ groups, ∀ e ∈ p.2, e ∈ R ∧ fullOf org e = p.1)
    (H : ∀ e1 ∈ R, ∀ e2 ∈ R, fullOf org e1 = fullOf org e2 →
      resolvedLogin mapping dm e1 = resolvedLogin mapping dm e2 →
      (resolvedLogin mapping dm e1).isSome = true →
      desiredGh e1 = desiredGh e2) :
    (∀ e0 ∈ R, Matches mapping dm org st.gh e0 →
      Matches mapping dm org
        (groups.foldl (processRepo mapping dm false) st).gh e0) ∧
    (∀ p ∈ groups, ∀ e ∈ p.2, Matches mapping dm org
      (groups.foldl (processRepo mapping dm false) st).gh e) := by
  induction groups generalizing st with
  | nil => exact ⟨fun e0 _ h => h, by simp⟩
  | cons p groups ih =>
    obtain ⟨p1, e1, _⟩ := processRepo_post mapping dm org R st p
      (fun e he => hgs p (List.mem_cons_self p groups) e he) H
    obtain ⟨p2, e2⟩ := ih (processRepo mapping dm false st p)
      (fun q hq e he => hgs q (List.mem_cons_of_mem p hq) e he)
    simp only [List.foldl_cons]
    refine ⟨?_, ?_⟩
    · intro e0 he0 hm
      exact p2 e0 he0 (p1 e0 he0 hm)
    · intro q hq e he
      rcases List.mem_cons.mp hq with rfl | hq
      · have hgR : e ∈ R := (hgs q (List.mem_cons_self q groups) e he).1
        exact p2 e hgR (e1 e he)
      · exact e2 q hq e he

theorem processEntries_no_writes (mapping : List (String × String)) (dm : Option String)
    (org full : String) (es : List Entry) (st : ApplyState)
    (hes : ∀ e ∈ es, fullOf org e = full)
    (hmatch : ∀ e ∈ es, Matches mapping dm org st.gh e)
    (hre : st.gh.repoExists full = true) :
    (processEntries mapping dm false full st es).gh = st.gh ∧
    writesOf (processEntries mapping dm false full st es).calls
      = writesOf st.calls := by
  induction es generalizing st with
  | nil => exact ⟨rfl, rfl⟩
  | cons e es ih =>
    obtain ⟨hw, hgh⟩ := processEntry_no_write_of_match mapping dm org full st.gh e
      (hes e (List.mem_cons_self e es)) (hmatch e (List.mem_cons_self e es)) hre
    rw [processEntries_cons]
    obtain ⟨ih1, ih2⟩ := ih
      (ApplyState.mk (st.calls ++ (processEntry mapping dm false full st.gh e).1)
        (st.warnings ++ (processEntry mapping dm false full st.gh e).2.1)
        ((processEntry mapping dm false full st.gh e).2.2))
      (fun x hx => hes x (List.mem_cons_of_mem e hx))
      (fun x hx => by
        show Matches mapping dm org (processEntry mapping dm false full st.gh e).2.2 x
        rw [hgh]
        exact hmatch x (List.mem_cons_of_mem e hx))
      (by
        show (processEntry mapping dm false full st.gh e).2.2.repoExists full = true
        rw [hgh]
        exact hre)
    constructor
    · rw [ih1]
      exact hgh
    · rw [ih2]
      show writesOf (st.calls ++ (processEntry mapping dm false full st.gh e).1)
        = writesOf st.calls
      unfold writesOf
      rw [List.filter_append]
      have : (processEntry mapping dm false full st.gh e).1.filter
          (fun c => match c with
            | GhCall.addCollab _ _ _ => true
            | _ => false) = writesOf (processEntry mapping dm false full st.gh e).1 := rfl
      rw [this, hw, List.append_nil]

theorem applyFold_no_writes (mapping : List (String × String)) (dm : Option String)
    (org : String) (groups : List (String × List Entry)) (st : ApplyState)
    (hgs : ∀ p ∈ groups, ∀ e ∈ p.2, fullOf org e = p.1 ∧
      Matches mapping dm org st.gh e) :
    (groups.foldl (processRepo mapping dm false) st).gh = st.gh ∧
    writesOf (groups.foldl (processRepo mapping dm false) st).calls
      = writesOf st.calls := by
  induction groups generalizing st with
  | nil => exact ⟨rfl, rfl⟩
  | cons p groups ih =>
    simp only [List.foldl_cons]
    by_cases hre : st.gh.repoExists p.1 = true
    · have heq : processRepo mapping dm false st p
          = processEntries mapping dm false p.1 st p.2 := by
        unfold processRepo
        rw [if_pos hre]
      obtain ⟨h1, h2⟩ := processEntries_no_writes mapping dm org p.1 p.2 st
        (fun e he => (hgs p (List.mem_cons_self p groups) e he).1)
        (fun e he => (hgs p (List.mem_cons_self p groups) e he).2) hre
      obtain ⟨ih1, ih2⟩ := ih (processRepo mapping dm false st p)
        (fun q hq e he => ⟨(hgs q (List.mem_cons_of_mem p hq) e he).1, by
          rw [heq, h1]
          exact (hgs q (List.mem_cons_of_mem p hq) e he).2⟩)
      rw [ih1, ih2, heq, h1, h2]
      exact ⟨rfl, rfl⟩
    · have heq : processRepo mapping dm false st p
          = { st with warnings := st.warnings ++ [AWarn.repoInaccessible p.1] } := by
        unfold processRepo
        rw [if_neg hre]
      obtain ⟨ih1, ih2⟩ := ih (processRepo mapping dm false st p)
        (fun q hq e he => ⟨(hgs q (List.mem_cons_of_mem p hq) e he).1, by
          rw [heq]
          exact (hgs q (List.mem_cons_of_mem p hq) e he).2⟩)
      rw [ih1, ih2, heq]
      exact ⟨rfl, rfl⟩

theorem groupStep_sound (org : String) (acc : List (String × List Entry)) (r : Entry)
    (S : Entry → Prop)
    (hacc : ∀ p ∈ acc, ∀ e ∈ p.2, S e ∧ fullOf org e = p.1) (hr : S r) :
    ∀ p ∈ groupStep org acc r, ∀ e ∈ p.2, S e ∧ fullOf org e = p.1 := by
  intro p hp e he
  unfold groupStep at hp
  by_cases hany : acc.any (fun q => decide (q.1 = fullOf org r)) = true
  · rw [if_pos hany] at hp
    obtain ⟨q, hq, hpq⟩ := List.mem_map.mp hp
    by_cases hq1 : q.1 = fullOf org r
    · rw [if_pos hq1] at hpq
      subst hpq
      rcases List.mem_append.mp he with he | he
      · exact hacc q hq e he
      · have her : e = r := by simpa using he
        subst her
        exact ⟨hr, hq1.symm⟩
    · rw [if_neg hq1] at hpq
      subst hpq
      exact hacc q hq e he
  · rw [if_neg hany] at hp
    rcases List.mem_append.mp hp with hp | hp
    · exact hacc p hp e he
    · have hpr : p = (fullOf org r, [r]) := by simpa using hp
      subst hpr
      have her : e = r := by simpa using he
      subst her
      exact ⟨hr, rfl⟩

theorem groupByRepo_sound (org : String) (rows : List Entry) :
    ∀ p ∈ groupByRepo org rows, ∀ e ∈ p.2, e ∈ rows ∧ fullOf org e = p.1 := by
  have main : ∀ (l : List Entry) (acc : List (String × List Entry)),
      (∀ x ∈ l, x ∈ rows) →
      (∀ p ∈ acc, ∀ e ∈ p.2, e ∈ rows ∧ fullOf org e = p.1) →
      ∀ p ∈ l.foldl (groupStep org) acc, ∀ e ∈ p.2, e ∈ rows ∧ fullOf org e = p.1 := by
    intro l
    induction l with
    | nil => intro acc _ hacc; exact hacc
    | cons x l ih =>
      intro acc hl hacc
      simp only [List.foldl_cons]
      exact ih (groupStep org acc x) (fun y hy => hl y (List.mem_cons_of_mem x hy))
        (groupStep_sound org acc x (· ∈ rows) hacc (hl x (List.mem_cons_self x l)))
  exact main rows [] (fun x hx => hx) (by simp)

theorem mem_insertByName (x y : String × List Entry) (l : List (String × List Entry)) :
    y ∈ insertByName x l ↔ y = x ∨ y ∈ l := by
  induction l with
  | nil => simp [insertByName]
  | cons z zs ih =>
    unfold insertByName
    by_cases hc : decide (x.1 < z.1) = true
    · rw [if_pos hc]
      simp [List.mem_cons]
    · rw [if_neg hc]
      simp only [List.mem_cons, ih]
      tauto

theorem mem_sortByName (l : List (String × List Entry)) (y : String × List Entry) :
    y ∈ sortByName l ↔ y ∈ l := by
  induction l with
  | nil => simp [sortByName]
  | cons x xs ih =>
    have h1 : sortByName (x :: xs) = insertByName x (sortByName xs) := rfl
    rw [h1, mem_insertByName, ih]
    simp [List.mem_cons]

/-- C3 (amended): apply_permissions issues a write for an entry only if the
desired GitHub level differs from the current collaborator permission after
normalizing GitHub's vocabulary; and, provided no two entries of the same
repository resolve to the same login with different desired levels, applying
the same effective set twice — with GitHub state changed only by the first
run — performs zero writes on the second run.  (Without that proviso
idempotence fails: see the counterexample, where two emails share the
default login.) -/
theorem apply_permissions_idempotent (org : String) (mapping_rows : List MappingRow)
    (dm : Option String) (rows : List Entry) (gh0 : GhState)
    (H : ∀ e1 ∈ rows, ∀ e2 ∈ rows, fullOf org e1 = fullOf org e2 →
      resolvedLogin (load_email_to_login mapping_rows) dm e1
        = resolvedLogin (load_email_to_login mapping_rows) dm e2 →
      (resolvedLogin (load_email_to_login mapping_rows) dm e1).isSome = true →
      desiredGh e1 = desiredGh e2) :
    (∀ (mapping : List (String × String)) (dr : Bool) (full : String) (gh : GhState)
      (e : Entry) (f l g : String),
      GhCall.addCollab f l g ∈ (processEntry mapping dm dr full gh e).1 →
      f = full ∧ ¬ ∃ cp, gh.collab full l = some cp ∧ ¬ cp = "" ∧ normGh cp = g) ∧
    writesOf (apply_permissions org mapping_rows dm false rows
      (apply_permissions org mapping_rows dm false rows gh0).gh).calls = [] := by
  constructor
  · intro mapping dr full gh e f l g hmem
    have h := processEntry_write_requires_diff mapping dm dr full gh e f l g hmem
    exact ⟨h.1, h.2.2.2⟩
  · have happly : ∀ gh : GhState, apply_permissions org mapping_rows dm false rows gh
        = (sortByName (groupByRepo org rows)).foldl
            (processRepo (load_email_to_login mapping_rows) dm false)
            (ApplyState.mk [] [] gh) := fun gh => rfl
    have hgs : ∀ p ∈ sortByName (groupByRepo org rows), ∀ e ∈ p.2,
        e ∈ rows ∧ fullOf org e = p.1 := by
      intro p hp e he
      exact groupByRepo_sound org rows p ((mem_sortByName _ _).mp hp) e he
    obtain ⟨_, hmatched⟩ := applyFold_post (load_email_to_login mapping_rows) dm org
      (sortByName (groupByRepo org rows)) rows (ApplyState.mk [] [] gh0) hgs H
    obtain ⟨h1, h2⟩ := applyFold_no_writes (load_email_to_login mapping_rows) dm org
      (sortByName (groupByRepo org rows))
      (ApplyState.mk [] []
        ((sortByName (groupByRepo org rows)).foldl
          (processRepo (load_email_to_login mapping_rows) dm false)
          (ApplyState.mk [] [] gh0)).gh)
      (fun p hp e he => ⟨(hgs p hp e he).2, hmatched p hp e he⟩)
    rw [happly, happly, h2]
    rfl

/-- C3 counterexample: two same-repository entries with different permissions
both fall back to the default login, so the second run still issues both
writes — applying the same effective set twice is not write-free. -/
theorem apply_permissions_not_idempotent_cex :
    writesOf (apply_permissions "o" [] (some "svc") false
      [Entry.mk "P" "R" "a@x" "REPO_WRITE", Entry.mk "P" "R" "b@x" "REPO_ADMIN"]
      (apply_permissions "o" [] (some "svc") false
        [Entry.mk "P" "R" "a@x" "REPO_WRITE", Entry.mk "P" "R" "b@x" "REPO_ADMIN"]
        (GhState.mk (fun _ => true) (fun _ _ => none))).gh).calls
      = [GhCall.addCollab "o/P-R" "svc" "push",
         GhCall.addCollab "o/P-R" "svc" "admin"] ∧
    [GhCall.addCollab "o/P-R" "svc" "push",
      GhCall.addCollab "o/P-R" "svc" "admin"] ≠ ([] : List GhCall) := by
  constructor
  · rfl
  · decide

/-- Witness for C3 (amended): one mapped entry, applied twice. -/
theorem apply_permissions_idempotent_witness :
    (∀ e1 ∈ [Entry.mk "P" "R" "a@x" "REPO_WRITE"],
      ∀ e2 ∈ [Entry.mk "P" "R" "a@x" "REPO_WRITE"],
      fullOf "o" e1 = fullOf "o" e2 →
      resolvedLogin (load_email_to_login [MappingRow.mk "a@x" "al"]) none e1
        = resolvedLogin (load_email_to_login [MappingRow.mk "a@x" "al"]) none e2 →
      (resolvedLogin (load_email_to_login [MappingRow.mk "a@x" "al"]) none e1).isSome
        = true →
      desiredGh e1 = desiredGh e2) ∧
    writesOf (apply_permissions "o" [MappingRow.mk "a@x" "al"] none false
      [Entry.mk "P" "R" "a@x" "REPO_WRITE"]
      (apply_permissions "o" [MappingRow.mk "a@x" "al"] none false
        [Entry.mk "P" "R" "a@x" "REPO_WRITE"]
        (GhState.mk (fun _ => true) (fun _ _ => none))).gh).calls = [] :=
  ⟨by decide,
    (apply_permissions_idempotent "o" [MappingRow.mk "a@x" "al"] none
      [Entry.mk "P" "R" "a@x" "REPO_WRITE"]
      (GhState.mk (fun _ => true) (fun _ _ => none)) (by decide)).2⟩

end BitbucketSunset
